import Mathlib

set_option maxRecDepth 8000

/-!
Verification development for the clox bytecode compiler / virtual machine.

The definitions below are shallow embeddings of the C sources:
scanner.c (final revision, second copy in the file), the Pratt compiler in
src/unnamed/part_003, the virtual machine loop in the third section of
src/debug.c, the open-addressed hash table in src/table.c, the string
interner in src/object.c, the garbage collector in src/memory.c and the
call discipline of the VM (src/debug.c, FRAMES_MAX in src/vm.h).

Machine details are modelled as follows: C doubles are idealized as
integers (every program considered here computes only with small integers,
on which IEEE-754 double arithmetic is exact); `uint8_t` casts are taken
modulo 256; pointers into the value stack become indices counted from the
bottom of the stack; heap pointers become numeric object ids.  Loops whose
termination depends on heap invariants are given explicit fuel, and return
`none` ("the C loop does not terminate within the number of steps after
which it provably repeats itself") when the fuel runs out.
-/

namespace Clox

/-- Runtime value; tagged union from value.h / the final tagged Value of the
VM.  Numbers are idealized doubles (integers; exact for every program used
here).  `obj` is a heap reference, identified by a numeric object id. -/
inductive Value where
  | nil
  | bool (b : Bool)
  | num (n : Int)
  | obj (id : Nat)
deriving DecidableEq, Repr

/-- Token types produced by the scanner (scanner.h / scanner.c). -/
inductive TokenType where
  | leftParen | rightParen | leftBrace | rightBrace
  | comma | dot | minus | plus | semicolon | slash | star
  | bang | bangEqual | equal | equalEqual
  | greater | greaterEqual | less | lessEqual
  | identifier | stringLit | number
  | kwAnd | kwClass | kwElse | kwFalse | kwFor | kwFun | kwIf | kwNil | kwOr
  | kwPrint | kwReturn | kwSuper | kwThis | kwTrue | kwVar | kwWhile
  | error | eof
deriving DecidableEq, Repr

/-- Token: type, lexeme (the borrowed source slice) and line (scanner.c,
`make_token`). For an error token the lexeme holds the message, exactly as
`error_token` stores the message pointer in `token.start`. -/
structure Token where
  type : TokenType
  lexeme : List Char
  line : Nat
deriving DecidableEq, Repr

/-- Scanner state: the remaining source characters (the `cur` pointer; the
C terminator `'\0'` is represented by the end of the list) and the current
line (scanner.c, `Scanner`). -/
structure ScanState where
  src : List Char
  line : Nat
deriving DecidableEq, Repr

/-- Character test from scanner.c `is_digit`. -/
def is_digit (c : Char) : Bool := '0' ≤ c && c ≤ '9'

/-- Character test from scanner.c `is_alpha`. -/
def is_alpha (c : Char) : Bool :=
  ('a' ≤ c && c ≤ 'z') || ('A' ≤ c && c ≤ 'Z') || c = '_'

/-- Lookahead from scanner.c `peek`; reading at the end of the source gives
the C string terminator. -/
def peekc (s : List Char) : Char := s.headD (Char.ofNat 0)

/-- Lookahead from scanner.c `peek_next`. -/
def peek_next (s : List Char) : Char :=
  match s with
  | [] => Char.ofNat 0
  | _ :: rest => peekc rest

/-- Comment loop inside `skip_whitespace` (scanner.c):
`while (peek() != '\n' && !is_at_end()) advance();`. -/
def skipComment : List Char → List Char
  | [] => []
  | c :: rest => if c = '\n' then c :: rest else skipComment rest

/-- Loop of scanner.c `skip_whitespace` (both copies have the identical
`switch`), over the remaining source and the line counter.  Note the
`case '/'` branch: after the comment loop the C `switch` has no `break`,
so control falls through into `default: return;`, leaving the terminating
`'\n'` unconsumed and unprocessed. -/
def skip_whitespace_go : List Char → Nat → List Char × Nat
  | [], line => ([], line)
  | c :: rest, line =>
    if c = ' ' ∨ c = '\r' ∨ c = '\t' then
      skip_whitespace_go rest line
    else if c = '\n' then
      skip_whitespace_go rest (line + 1)
    else if c = '/' then
      if peek_next (c :: rest) = '/' then
        -- comment consumed; then the missing break falls through to `return`
        (skipComment (c :: rest), line)
      else (c :: rest, line)
    else (c :: rest, line)

/-- Whitespace skipping from scanner.c `skip_whitespace`. -/
def skip_whitespace (s : ScanState) : ScanState :=
  let r := skip_whitespace_go s.src s.line
  ⟨r.1, r.2⟩

/-- Number literal loop from scanner.c `number`: digits, then an optional
`.` followed by at least one digit.  Returns the unconsumed rest. -/
def dropDigits : List Char → List Char
  | [] => []
  | c :: rest => if is_digit c then dropDigits rest else c :: rest

/-- Rest of the source after scanning a number literal (scanner.c
`number`); the first digit has already been consumed by `advance`. -/
def numberRest (s : List Char) : List Char :=
  let s1 := dropDigits s
  match s1 with
  | '.' :: c :: rest => if is_digit c then dropDigits rest else s1
  | _ => s1

/-- String literal loop from scanner.c `string`: walk to the closing quote
counting newlines; `none` when the source ends first (unterminated). On
success returns the line and the rest after the closing quote. -/
def stringScan : Nat → List Char → Option (Nat × List Char)
  | _, [] => none
  | line, c :: rest =>
    if c = '"' then some (line, rest)
    else stringScan (if c = '\n' then line + 1 else line) rest

/-- Identifier loop from scanner.c `identifier`:
`while (is_alpha(peek()) || is_digit(peek())) advance();`. -/
def identRest : List Char → List Char
  | [] => []
  | c :: rest => if is_alpha c || is_digit c then identRest rest else c :: rest

/-- Keyword check from scanner.c `check_keyword`: the lexeme must be exactly
`start + len` characters long and its tail from `start` must equal `rest`. -/
def check_keyword (lexeme : List Char) (start len : Nat) (rest : List Char)
    (t : TokenType) : TokenType :=
  if lexeme.length = start + len && lexeme.drop start == rest then t
  else .identifier

/-- Keyword trie from scanner.c `identifier_type`, dispatching on the first
(and for `f`/`t` the second) character of the lexeme. -/
def identifier_type (lexeme : List Char) : TokenType :=
  match lexeme with
  | 'a' :: _ => check_keyword lexeme 1 2 ("nd".toList) .kwAnd
  | 'c' :: _ => check_keyword lexeme 1 4 ("lass".toList) .kwClass
  | 'e' :: _ => check_keyword lexeme 1 3 ("lse".toList) .kwElse
  | 'f' :: 'a' :: _ => check_keyword lexeme 2 3 ("lse".toList) .kwFalse
  | 'f' :: 'o' :: _ => check_keyword lexeme 2 1 ("r".toList) .kwFor
  | 'f' :: 'u' :: _ => check_keyword lexeme 2 1 ("n".toList) .kwFun
  | 'i' :: _ => check_keyword lexeme 1 1 ("f".toList) .kwIf
  | 'n' :: _ => check_keyword lexeme 1 2 ("il".toList) .kwNil
  | 'o' :: _ => check_keyword lexeme 1 1 ("r".toList) .kwOr
  | 'p' :: _ => check_keyword lexeme 1 4 ("rint".toList) .kwPrint
  | 'r' :: _ => check_keyword lexeme 1 5 ("eturn".toList) .kwReturn
  | 's' :: _ => check_keyword lexeme 1 4 ("uper".toList) .kwSuper
  | 't' :: 'h' :: _ => check_keyword lexeme 2 2 ("is".toList) .kwThis
  | 't' :: 'r' :: _ => check_keyword lexeme 2 2 ("ue".toList) .kwTrue
  | 'v' :: _ => check_keyword lexeme 1 2 ("ar".toList) .kwVar
  | 'w' :: _ => check_keyword lexeme 1 4 ("hile".toList) .kwWhile
  | _ => .identifier

/-- Token construction from scanner.c `make_token`: the lexeme is the slice
between `scanner.start` and `scanner.cur`, recovered here from the suffix
at the start of the token and the unconsumed suffix. -/
def mk_token (t : TokenType) (start rest : List Char) (line : Nat) : Token :=
  ⟨t, start.take (start.length - rest.length), line⟩

/-- Error token from scanner.c `error_token`: the "lexeme" is the message. -/
def error_token (msg : String) (line : Nat) : Token :=
  ⟨.error, msg.toList, line⟩

/-- One token of lookahead, from the final scanner.c `scan_token`.  Returns
the scanner state after the token together with the token. -/
def scan_token (s0 : ScanState) : ScanState × Token :=
  let s := skip_whitespace s0
  let start := s.src
  let line := s.line
  match s.src with
  | [] => (s, mk_token .eof start [] line)
  | c :: rest =>
    let simple (t : TokenType) (r : List Char) : ScanState × Token :=
      (⟨r, line⟩, mk_token t start r line)
    match c with
    | '(' => simple .leftParen rest
    | ')' => simple .rightParen rest
    | '{' => simple .leftBrace rest
    | '}' => simple .rightBrace rest
    | ';' => simple .semicolon rest
    | ',' => simple .comma rest
    | '.' => simple .dot rest
    | '-' => simple .minus rest
    | '+' => simple .plus rest
    | '/' => simple .slash rest
    | '*' => simple .star rest
    | '!' =>
      match rest with
      | '=' :: rest2 => simple .bangEqual rest2
      | _ => simple .bang rest
    | '=' =>
      match rest with
      | '=' :: rest2 => simple .equalEqual rest2
      | _ => simple .equal rest
    | '<' =>
      match rest with
      | '=' :: rest2 => simple .lessEqual rest2
      | _ => simple .less rest
    | '>' =>
      match rest with
      | '=' :: rest2 => simple .greaterEqual rest2
      | _ => simple .greater rest
    | '"' =>
      match stringScan line rest with
      | none =>
        -- unterminated string: the scanner has consumed everything
        (⟨[], line⟩, error_token "Unterminated string." line)
      | some (line2, rest2) => (⟨rest2, line2⟩, mk_token .stringLit start rest2 line2)
    | _ =>
      if is_alpha c then
        let r := identRest rest
        (⟨r, line⟩, mk_token (identifier_type (start.take (start.length - r.length))) start r line)
      else if is_digit c then
        let r := numberRest rest
        simple .number r
      else
        (⟨rest, line⟩, error_token "Unexpected character." line)

/-! ## Open-addressed hash table (table.c) -/

/-- Hash-table entry (table.h): an optional key — an interned-string object
id, with `none` modelling `key == NULL` — and a value.  A truly empty slot
is `⟨none, nil⟩`; a tombstone left by `table_delete` is
`⟨none, bool true⟩`. -/
structure Entry where
  key : Option Nat
  value : Value
deriving DecidableEq, Repr

/-- Open-addressed hash table (table.h): `len` counts keys plus tombstones,
exactly as table.c maintains it, and `entries` is the slot array.  The C
`cap` field always equals the allocated array length, so the capacity is
recovered as `entries.length`. -/
structure Table where
  len : Nat
  entries : List Entry
deriving DecidableEq, Repr

/-- Capacity of a table (the C `cap` field). -/
def Table.cap (t : Table) : Nat := t.entries.length

/-- Fresh table from table.c `init_table`. -/
def init_table : Table := ⟨0, []⟩

/-- Probe walk of table.c `find_entry`.  The C loop starts at
`key->hash % capacity` and steps `index = (index + 1) % capacity`, so after
`d` steps it inspects slot `(hk + d) % cap`; `tomb` remembers the first
tombstone passed.  The walk stops at the key, or at a truly empty slot
(preferring the remembered tombstone).  Fuel `cap` is exact: if the C loop
has not stopped after `cap` probes it has visited every slot and loops
forever, which this model reports as `none`. -/
def find_entry_go (entries : List Entry) (cap hk kid : Nat) :
    Nat → Nat → Option Nat → Option Nat
  | 0, _, _ => none
  | fuel + 1, d, tomb =>
    let i := (hk + d) % cap
    match entries.get? i with
    | none => none
    | some e =>
      match e.key with
      | some k =>
        if k = kid then some i
        else find_entry_go entries cap hk kid fuel (d + 1) tomb
      | none =>
        if e.value = .nil then
          match tomb with
          | some t2 => some t2
          | none => some i
        else
          find_entry_go entries cap hk kid fuel (d + 1)
            (match tomb with | some t2 => some t2 | none => some i)

/-- Slot found by table.c `find_entry` for key `kid` whose hash is `hk`. -/
def find_entry (entries : List Entry) (cap hk kid : Nat) : Option Nat :=
  find_entry_go entries cap hk kid cap 0 none

/-- Lookup from table.c `table_get`.  The outer `Option` is the
nontermination channel of `find_entry`; the inner one is the C boolean
result (`none` = key absent). -/
def table_get (hash : Nat → Nat) (t : Table) (kid : Nat) : Option (Option Value) :=
  if t.len = 0 then some none
  else
    match find_entry t.entries t.cap (hash kid) kid with
    | none => none
    | some i =>
      match t.entries.get? i with
      | none => none
      | some e => if e.key = none then some none else some (some e.value)

/-- Capacity growth from memory.h `GROW_CAPACITY`. -/
def grow_capacity (c : Nat) : Nat := if c < 8 then 8 else c * 2

/-- Re-insertion loop of table.c `adjust_capacity`: walk the old entries,
skip NULL keys, and place each key into the fresh array, counting the
copied keys. -/
def adjust_insert (hash : Nat → Nat) (capacity : Nat) :
    List Entry → List Entry × Nat → Option (List Entry × Nat)
  | [], acc => some acc
  | e :: rest, acc =>
    match e.key with
    | none => adjust_insert hash capacity rest acc
    | some k =>
      match find_entry acc.1 capacity (hash k) k with
      | none => none
      | some i =>
        adjust_insert hash capacity rest (acc.1.set i ⟨some k, e.value⟩, acc.2 + 1)

/-- Rebuild from table.c `adjust_capacity`: allocate `capacity` empty
slots, then re-insert every non-NULL key, recounting `len` so that
tombstones are dropped. -/
def adjust_capacity (hash : Nat → Nat) (t : Table) (capacity : Nat) : Option Table :=
  (adjust_insert hash capacity t.entries (List.replicate capacity ⟨none, .nil⟩, 0)).map
    fun p => ⟨p.2, p.1⟩

/-- Probe-and-write part of table.c `table_set` (everything after the
possible grow): find the slot, compute `is_new_key`, bump `len` only when a
truly empty slot is consumed, store the entry. -/
def table_set_probe (hash : Nat → Nat) (t1 : Table) (kid : Nat) (v : Value) :
    Option (Table × Bool) :=
  match find_entry t1.entries t1.cap (hash kid) kid with
  | none => none
  | some i =>
    match t1.entries.get? i with
    | none => none
    | some e =>
      let is_new := e.key = none
      let len2 := if is_new ∧ e.value = .nil then t1.len + 1 else t1.len
      some (⟨len2, t1.entries.set i ⟨some kid, v⟩⟩, is_new)

/-- Insertion from table.c `table_set`.  The load-factor test
`len + 1 > cap * 0.75` is exact double arithmetic, rendered here as the
equivalent integer comparison.  Returns the updated table and the C result
`is_new_key`. -/
def table_set (hash : Nat → Nat) (t : Table) (kid : Nat) (v : Value) :
    Option (Table × Bool) :=
  (if 4 * (t.len + 1) > 3 * t.cap then adjust_capacity hash t (grow_capacity t.cap)
   else some t).bind fun t1 => table_set_probe hash t1 kid v

/-- Deletion from table.c `table_delete`: place a tombstone
`⟨none, bool true⟩` in the key's slot; `len` is not decremented. -/
def table_delete (hash : Nat → Nat) (t : Table) (kid : Nat) : Option (Table × Bool) :=
  if t.len = 0 then some (t, false)
  else
    match find_entry t.entries t.cap (hash kid) kid with
    | none => none
    | some i =>
      match t.entries.get? i with
      | none => none
      | some e =>
        if e.key = none then some (t, false)
        else some (⟨t.len, t.entries.set i ⟨none, .bool true⟩⟩, true)

/-- Raw-bytes lookup of table.c `table_find_string`: walk the probe
sequence of `h`, stopping at a truly empty slot (`none` result) or at a key
whose length, hash and bytes all match.  `store` recovers a string object's
characters from its id and `hashf` its stored hash field.  Fuel as in
`find_entry`. -/
def table_find_string_go (store : Nat → List Char) (hashf : Nat → Nat)
    (entries : List Entry) (cap : Nat) (chars : List Char) (h : Nat) :
    Nat → Nat → Option (Option Nat)
  | 0, _ => none
  | fuel + 1, d =>
    let i := (h + d) % cap
    match entries.get? i with
    | none => none
    | some e =>
      match e.key with
      | none =>
        if e.value = .nil then some none
        else table_find_string_go store hashf entries cap chars h fuel (d + 1)
      | some k =>
        if (store k).length = chars.length ∧ hashf k = h ∧ store k = chars then
          some (some k)
        else table_find_string_go store hashf entries cap chars h fuel (d + 1)

/-- Interned string found by table.c `table_find_string`. -/
def table_find_string (store : Nat → List Char) (hashf : Nat → Nat)
    (t : Table) (chars : List Char) (h : Nat) : Option (Option Nat) :=
  if t.len = 0 then some none
  else table_find_string_go store hashf t.entries t.cap chars h t.cap 0

/-! ## String interning (object.c) -/

/-- FNV-1a hash from object.c `hash_string`; `uint32_t` arithmetic is taken
modulo `2 ^ 32` and each character is read as a byte. -/
def hash_string (chars : List Char) : Nat :=
  chars.foldl (fun h c => ((h ^^^ c.toNat % 256) * 16777619) % 2 ^ 32) 2166136261

/-- Global interning state: the contents of every allocated string object
(`store`, keyed by object id), the `vm.strings` interner table, and the
next fresh object id (standing in for a fresh heap address). -/
structure InternState where
  store : List (Nat × List Char)
  strings : Table
  nextId : Nat
deriving DecidableEq, Repr

/-- Characters of string object `k` (the `chars`/`len` fields). -/
def InternState.chars (σ : InternState) (k : Nat) : List Char :=
  ((σ.store.find? fun p => p.1 = k).map Prod.snd).getD []

/-- Stored hash field of string object `k` (set from `hash_string` at
allocation, object.c `allocate_string`). -/
def InternState.hashf (σ : InternState) (k : Nat) : Nat :=
  hash_string (σ.chars k)

/-- Allocation from object.c `allocate_string`: record the characters and
hash under a fresh id and insert the new string into `vm.strings`. -/
def allocate_string (σ : InternState) (chars : List Char) :
    Option (InternState × Nat) :=
  let id := σ.nextId
  let σ1 : InternState := ⟨(id, chars) :: σ.store, σ.strings, σ.nextId + 1⟩
  (table_set σ1.hashf σ1.strings id .nil).map fun p =>
    (⟨σ1.store, p.1, σ1.nextId⟩, id)

/-- Interned copy from object.c `copy_string`: hash the bytes, return the
existing interned string if the table already holds one, otherwise allocate
a fresh one. -/
def copy_string (σ : InternState) (chars : List Char) :
    Option (InternState × Nat) :=
  let h := hash_string chars
  (table_find_string σ.chars σ.hashf σ.strings chars h).bind fun found =>
    match found with
    | some interned => some (σ, interned)
    | none => allocate_string σ chars

/-- Interning from object.c `take_string`: identical lookup; on a hit the
C code frees the transferred buffer (a no-op here) and returns the interned
string, otherwise the buffer is adopted by a fresh string. -/
def take_string (σ : InternState) (chars : List Char) :
    Option (InternState × Nat) :=
  let h := hash_string chars
  (table_find_string σ.chars σ.hashf σ.strings chars h).bind fun found =>
    match found with
    | some interned => some (σ, interned)
    | none => allocate_string σ chars

/-- Fresh interning state (init_vm initializes `vm.strings` empty). -/
def initInternState : InternState := ⟨[], init_table, 0⟩

/-- One interning event: `copy_string` on a source slice or `take_string`
on an owned buffer (string concatenation enters here, debug.c
`concatenate`). -/
inductive InternOp where
  | copy (chars : List Char)
  | take (chars : List Char)
deriving DecidableEq, Repr

/-- Characters of an interning event. -/
def InternOp.chars : InternOp → List Char
  | .copy cs => cs
  | .take cs => cs

/-- Run a sequence of interning events from a state, logging each call's
characters and returned object; `none` if any table walk diverges. -/
def runInternOps (σ : InternState) :
    List InternOp → Option (InternState × List (List Char × Nat))
  | [] => some (σ, [])
  | op :: ops =>
    (match op with
     | .copy cs => copy_string σ cs
     | .take cs => take_string σ cs).bind fun p =>
      (runInternOps p.1 ops).map
        fun q : InternState × List (List Char × Nat) =>
          (q.1, (op.chars, p.2) :: q.2)

/-! ## Bytecode opcodes (the final OpCode enum, as dispatched on by the
VM loop in debug.c and emitted by the compiler in part_003) -/

/-- Opcode of the final instruction set. -/
inductive OpCode where
  | constant
  | nilLit | trueLit | falseLit
  | pop
  | getLocal | setLocal
  | getGlobal | defineGlobal | setGlobal
  | getUpvalue | setUpvalue
  | getProperty | setProperty
  | equal | greater | less
  | add | subtract | multiply | divide
  | notOp | negate
  | print
  | jump | jumpIfFalse | loop
  | call
  | closure | closeUpvalue
  | ret
  | classOp | method
deriving DecidableEq, Repr

/-- Truncating cast to `uint8_t`, as applied by `emit_bytes(op, (uint8_t)arg)`
and friends; C converts to unsigned 8-bit by reduction modulo 256
(so `(uint8_t)(-1) = 255`). -/
def toU8 (i : Int) : Nat := (i % 256).toNat

/-! ## Compiler variable resolution (src/unnamed/part_003) -/

/-- Local-variable record from part_003 (`Local`): the name token's lexeme,
the scope depth (−1 between declaration and initialization) and the capture
flag. -/
structure CLocal where
  name : List Char
  depth : Int
  is_captured : Bool
deriving DecidableEq, Repr

/-- Compile-time upvalue record from part_003 (`Upvalue`). -/
structure CUpvalue where
  index : Nat
  is_local : Bool
deriving DecidableEq, Repr

/-- Compiler state chain from part_003 (`Compiler`): the enclosing
compiler, the locals array, the upvalues array (whose length is the
function's `upvalue_count`) and the current function chunk's constant pool
restricted to the identifier constants relevant here. -/
inductive CompilerSt where
  | mk (enclosing : Option CompilerSt) (locals : List CLocal)
      (upvalues : List CUpvalue) (constants : List (List Char))

/-- Enclosing compiler. -/
def CompilerSt.enclosing : CompilerSt → Option CompilerSt
  | .mk e _ _ _ => e

/-- Locals array of a compiler. -/
def CompilerSt.locals : CompilerSt → List CLocal
  | .mk _ l _ _ => l

/-- Upvalues array of a compiler. -/
def CompilerSt.upvalues : CompilerSt → List CUpvalue
  | .mk _ _ u _ => u

/-- Constant pool of a compiler's function chunk. -/
def CompilerSt.constants : CompilerSt → List (List Char)
  | .mk _ _ _ c => c

/-- Backwards scan of part_003 `resolve_local_idx`: walk the locals from
the most recently declared one, comparing lexemes
(`identifiers_are_equal`); −1 when the name is not a local.  The
`depth == -1` case additionally reports "Can't read local variable in its
own initializer." but still returns the index, so the error flag is not
modelled here. -/
def resolve_local_go (locals : List CLocal) (name : List Char) : Nat → Int
  | 0 => -1
  | i + 1 =>
    match locals.get? i with
    | some l => if l.name = name then (i : Int) else resolve_local_go locals name i
    | none => resolve_local_go locals name i

/-- Local slot for a name in a compiler (part_003 `resolve_local_idx`). -/
def resolve_local_idx (c : CompilerSt) (name : List Char) : Int :=
  resolve_local_go c.locals name c.locals.length

/-- Mark the local at `i` as captured
(`compiler->enclosing->locals[local].is_captured = true`). -/
def setCaptured (c : CompilerSt) (i : Nat) : CompilerSt :=
  match c with
  | .mk e ls us ks =>
    .mk e (ls.modify (fun l => { l with is_captured := true }) i) us ks

/-- Upvalue registration from part_003 `add_upvalue`: reuse an existing
entry with the same `(index, is_local)`, error (returning 0) at 256
entries, otherwise append and return the previous count. -/
def add_upvalue (c : CompilerSt) (index : Nat) (is_local : Bool) :
    CompilerSt × Int :=
  match c.upvalues.findIdx? fun u => u.index = index ∧ u.is_local = is_local with
  | some i => (c, (i : Int))
  | none =>
    if c.upvalues.length = 256 then (c, 0)
    else
      match c with
      | .mk e ls us ks => (.mk e ls (us ++ [⟨index, is_local⟩]) ks, (us.length : Int))

/-- Upvalue resolution from part_003 `resolve_upvalue_idx`: −1 at the
outermost compiler; otherwise capture a matching local of the enclosing
compiler (marking it captured), or recurse and thread the upvalue through
this compiler. -/
def resolve_upvalue_idx : CompilerSt → List Char → CompilerSt × Int
  | .mk none ls us ks, _ => (.mk none ls us ks, -1)
  | .mk (some enc) ls us ks, name =>
    let localIdx := resolve_local_idx enc name
    if localIdx ≠ -1 then
      let enc2 := setCaptured enc localIdx.toNat
      add_upvalue (.mk (some enc2) ls us ks) (toU8 localIdx) true
    else
      let r := resolve_upvalue_idx enc name
      if r.2 ≠ -1 then add_upvalue (.mk (some r.1) ls us ks) (toU8 r.2) false
      else (.mk (some r.1) ls us ks, -1)

/-- Name constant from part_003 `identifier_constant` / `make_constant`:
append the identifier to the chunk's constant pool; an index above 255
reports "Too many constants in one chunk." and yields 0. -/
def identifier_constant (c : CompilerSt) (name : List Char) :
    CompilerSt × Nat :=
  match c with
  | .mk e ls us ks =>
    let idx := (ks ++ [name]).length - 1
    if idx > 255 then (.mk e ls us (ks ++ [name]), 0)
    else (.mk e ls us (ks ++ [name]), idx)

/-- Resolution order of part_003 `named_variable` (lines 436–458), verbatim:
`arg = resolve_local_idx(...)`; when `arg == -1` the name is treated as a
global; otherwise `arg` is OVERWRITTEN by `resolve_upvalue_idx(...)` and the
local/upvalue choice is made on the overwritten value, emitting
`(uint8_t)arg`.  Returns the updated compiler and the `(get_op, operand)`
and `(set_op, operand)` pairs that `emit_bytes` would receive. -/
def named_variable_ops (c0 : CompilerSt) (name : List Char) :
    CompilerSt × (OpCode × Nat) × (OpCode × Nat) :=
  let arg := resolve_local_idx c0 name
  if arg = -1 then
    let r := identifier_constant c0 name
    (r.1, (.getGlobal, r.2), (.setGlobal, r.2))
  else
    let r := resolve_upvalue_idx c0 name
    if r.2 ≠ -1 then
      (r.1, (.getUpvalue, toU8 r.2), (.setUpvalue, toU8 r.2))
    else
      (r.1, (.getLocal, toU8 r.2), (.setLocal, toU8 r.2))

/-! ## Call discipline (debug.c `call`, vm.h `FRAMES_MAX`) -/

/-- Maximum call-frame count from vm.h. -/
def FRAMES_MAX : Nat := 64

/-- Closure as read by `call`: only the function's arity matters here. -/
structure ObjClosureM where
  arity : Nat
deriving DecidableEq, Repr

/-- Call frame from vm.h: closure, instruction pointer (an offset into the
function's code; `call` sets it to the start), and the slots base as an
offset from the bottom of the value stack. -/
structure CallFrame where
  closure : ObjClosureM
  ip : Nat
  slots : Nat
deriving DecidableEq, Repr

/-- Runtime errors raised by the modelled VM paths, one constructor per
`runtime_error` message: `expectedArgs want got` is
"Expected want arguments but got got.", `stackOverflow` is
"Stack overflow.", `undefinedVariable k` is "Undefined variable ..." for
the name object `k`. -/
inductive RuntimeErr where
  | expectedArgs (want got : Nat)
  | stackOverflow
  | undefinedVariable (name : Nat)
deriving DecidableEq, Repr

/-- Frame/stack fragment of the VM state consulted by `call`. -/
structure CallVMState where
  frames : List CallFrame
  stackLen : Nat
deriving DecidableEq, Repr

/-- Call protocol from debug.c `call` (lines 272–289): reject an arity
mismatch, then reject a full frame array, then push a frame whose `ip`
starts at the function's code and whose `slots` is
`stack_top − arg_count − 1`. -/
def call (vm : CallVMState) (closure : ObjClosureM) (arg_count : Nat) :
    CallVMState × Option RuntimeErr :=
  if arg_count ≠ closure.arity then
    (vm, some (.expectedArgs closure.arity arg_count))
  else if vm.frames.length = FRAMES_MAX then
    (vm, some .stackOverflow)
  else
    ({ vm with
        frames := vm.frames ++ [⟨closure, 0, vm.stackLen - arg_count - 1⟩] },
     none)

/-! ## Open upvalues (debug.c `capture_upvalue`, `close_upvalues`) -/

/-- Upvalue object: `location` is the stack slot an open upvalue points at
(slot indices grow with C stack addresses, so address comparison is index
comparison); a closed upvalue's C `location` points at its own `closed`
field, modelled by `location = none`. -/
structure UpvalueCell where
  location : Option Nat
  closed : Value
deriving DecidableEq, Repr

/-- VM fragment for upvalue management: the value stack (index 0 is the
bottom of the stack), the upvalue objects by id, and `vm.open_upvalues`
(the ids threaded through the `next` pointers, head first). -/
structure UVState where
  stack : List Value
  cells : List UpvalueCell
  openUps : List Nat
deriving DecidableEq, Repr

/-- Location of an upvalue cell by id; `none` for a dangling id or a closed
cell. -/
def cellLoc (cells : List UpvalueCell) (id : Nat) : Option Nat :=
  (cells.get? id).bind fun c => c.location

/-- Walk of debug.c `capture_upvalue` along the open-upvalue list: skip
while `upvalue->location > local`; reuse an upvalue already at `local`;
otherwise splice in a fresh open upvalue (object.c's final `new_upvalue`
is not under src/; modelled from the spec: an open upvalue pointing at the
slot, with `closed` initialized to nil).  Returns `none` if a closed or
dangling cell sits on the open list, which the modelled VM never produces. -/
def capture_go (cells : List UpvalueCell) (slot : Nat) :
    List Nat → Option (List UpvalueCell × List Nat × Nat)
  | [] =>
    let id := cells.length
    some (cells ++ [⟨some slot, .nil⟩], [id], id)
  | u :: rest =>
    match cellLoc cells u with
    | none => none
    | some loc =>
      if slot < loc then
        (capture_go cells slot rest).map
          fun r : List UpvalueCell × List Nat × Nat => (r.1, u :: r.2.1, r.2.2)
      else if loc = slot then some (cells, u :: rest, u)
      else
        let id := cells.length
        some (cells ++ [⟨some slot, .nil⟩], id :: u :: rest, id)

/-- Capture of a stack slot from debug.c `capture_upvalue`: returns the
updated state and the id of the (shared or fresh) upvalue. -/
def capture_upvalue (σ : UVState) (slot : Nat) : Option (UVState × Nat) :=
  (capture_go σ.cells slot σ.openUps).map
    fun r : List UpvalueCell × List Nat × Nat =>
      (⟨σ.stack, r.1, r.2.1⟩, r.2.2)

/-- Loop of debug.c `close_upvalues`: while the head of the open list has
`location ≥ last`, copy the stack slot into `closed`, redirect `location`
to the cell's own `closed` field, and unlink the cell. -/
def close_go (stack : List Value) (cells : List UpvalueCell) (last : Nat) :
    List Nat → Option (List UpvalueCell × List Nat)
  | [] => some (cells, [])
  | u :: rest =>
    match cellLoc cells u with
    | none => none
    | some loc =>
      if loc ≥ last then
        match stack.get? loc with
        | none => none
        | some v => close_go stack (cells.set u ⟨none, v⟩) last rest
      else some (cells, u :: rest)

/-- Closing of upvalues at or above `last` (debug.c `close_upvalues`). -/
def close_upvalues (σ : UVState) (last : Nat) : Option UVState :=
  (close_go σ.stack σ.cells last σ.openUps).map
    fun r : List UpvalueCell × List Nat => ⟨σ.stack, r.1, r.2⟩

/-! ## Garbage collector (memory.c) -/

/-- Heap object payload, one constructor per `ObjType` of object.h
(part_009); only the fields traversed by the collector are kept.  Children
are object ids; a `none` name models a NULL pointer. -/
inductive ObjKind where
  | str (chars : List Char)
  | function (name : Option Nat) (constants : List Value)
  | closure (fn : Nat) (upvalues : List Nat)
  | upvalue (closed : Value)
  | native
  | klass (name : Nat) (methods : Table)
  | inst (klass : Nat) (fields : Table)
  | boundMethod (receiver : Value) (method : Nat)
deriving DecidableEq, Repr

/-- VM state as seen by the collector: the roots enumerated by
memory.c `mark_roots`, the interner, `vm.init_string`, the intrusive
object list `vm.objects` and the heap contents by id. -/
structure GCVm where
  stack : List Value
  frames : List Nat
  open_upvalues : List Nat
  globals : Table
  strings : Table
  init_string : Option Nat
  compiler_functions : List Nat
  objects : List Nat
  heap : List (Nat × ObjKind)
deriving DecidableEq, Repr

/-- Mark bookkeeping: the set of `is_marked` objects and the gray
worklist. -/
structure GCMarks where
  marked : List Nat
  gray : List Nat
deriving DecidableEq, Repr

/-- Marking from memory.c `mark_object`: ignore NULL, ignore an already
marked object, otherwise set `is_marked` and push the object onto the gray
stack. -/
def mark_object (g : GCMarks) (id : Option Nat) : GCMarks :=
  match id with
  | none => g
  | some i => if i ∈ g.marked then g else ⟨i :: g.marked, i :: g.gray⟩

/-- Marking from memory.c `mark_value`: only object-carrying values are
marked. -/
def mark_value (g : GCMarks) (v : Value) : GCMarks :=
  match v with
  | .obj i => mark_object g (some i)
  | _ => g

/-- Marking from table.c `mark_table`: every entry's key and value. -/
def mark_table (g : GCMarks) (t : Table) : GCMarks :=
  t.entries.foldl (fun g2 e => mark_value (mark_object g2 e.key) e.value) g

/-- Root marking from memory.c `mark_roots` (lines 132–147): the value
stack, each frame's closure, the open-upvalue list, the globals table and
the compiler chain's functions (`mark_compiler_roots`).  Note that
`vm.init_string` is NOT among the marked roots. -/
def mark_roots (vm : GCVm) : GCMarks :=
  let g0 : GCMarks := ⟨[], []⟩
  let g1 := vm.stack.foldl mark_value g0
  let g2 := vm.frames.foldl (fun g i => mark_object g (some i)) g1
  let g3 := vm.open_upvalues.foldl (fun g i => mark_object g (some i)) g2
  let g4 := mark_table g3 vm.globals
  vm.compiler_functions.foldl (fun g i => mark_object g (some i)) g4

/-- Heap lookup by object id. -/
def GCVm.heapGet (vm : GCVm) (id : Nat) : Option ObjKind :=
  (vm.heap.find? fun p => p.1 = id).map Prod.snd

/-- Child traversal from memory.c `blacken_object`, one case per object
type; strings and natives have no children. -/
def blacken_object (vm : GCVm) (g : GCMarks) (id : Nat) : GCMarks :=
  match vm.heapGet id with
  | none => g
  | some k =>
    match k with
    | .str _ => g
    | .native => g
    | .function name constants =>
      constants.foldl mark_value (mark_object g name)
    | .closure fn upvalues =>
      upvalues.foldl (fun g2 u => mark_object g2 (some u)) (mark_object g (some fn))
    | .upvalue closed => mark_value g closed
    | .klass name methods => mark_table (mark_object g (some name)) methods
    | .inst klass fields => mark_table (mark_object g (some klass)) fields
    | .boundMethod receiver method =>
      mark_object (mark_value g receiver) (some method)

/-- Worklist loop from memory.c `trace_references`: pop a gray object and
blacken it until the gray stack is empty; the fuel (a bound on mark events,
each of which pushes at most once) is supplied by `collect_garbage`. -/
def trace_references (vm : GCVm) : Nat → GCMarks → GCMarks
  | 0, g => g
  | fuel + 1, g =>
    match g.gray with
    | [] => g
    | i :: rest => trace_references vm fuel (blacken_object vm ⟨g.marked, rest⟩ i)

/-- Modelled from the spec: `table_remove_white` is called by
`collect_garbage` but its definition is not under src/.  Per the spec the
interner "must have dead (unmarked) keys removed before sweep": every entry
whose key is unmarked is deleted (table.c deletion places a tombstone). -/
def table_remove_white (g : GCMarks) (t : Table) : Table :=
  ⟨t.len,
   t.entries.map fun e =>
     match e.key with
     | some k => if k ∈ g.marked then e else ⟨none, .bool true⟩
     | none => e⟩

/-- Sweep from memory.c `sweep`: unlink and free every unmarked object on
`vm.objects`, clearing `is_marked` on the survivors (the cleared flags are
implicit here since `GCMarks` is local to a cycle). -/
def sweep (g : GCMarks) (vm : GCVm) : GCVm :=
  { vm with
    objects := vm.objects.filter fun i => i ∈ g.marked,
    heap := vm.heap.filter fun p => ¬(p.1 ∈ vm.objects ∧ p.1 ∉ g.marked) }

/-- Collection cycle from memory.c `collect_garbage`: mark roots, trace,
purge the interner, sweep.  The trace fuel bounds the number of mark
events: every gray push marks a previously unmarked id, and every markable
id lives in the heap or on a root, so the bound below suffices. -/
def collect_garbage (vm : GCVm) : GCVm :=
  let fuel := (vm.heap.length + vm.stack.length + vm.frames.length +
      vm.open_upvalues.length + vm.globals.entries.length +
      vm.compiler_functions.length + 1) * (vm.heap.length + 2)
  let g := trace_references vm fuel (mark_roots vm)
  let vm2 := sweep g vm
  { vm2 with strings := table_remove_white g vm2.strings }

/-! ## Global-variable opcodes of the VM loop (debug.c `run`) -/

/-- Step of the `OP_DEFINE_GLOBAL` case of debug.c `run` (lines 492–498):
`table_set(&vm.globals, name, peek(0)); pop();` — no branch raises an
error.  The name is the interned string id the instruction's constant
refers to; the result is the new globals table and the popped stack.
`none` is the nontermination/stack-underflow channel. -/
def op_define_global (hash : Nat → Nat) (globals : Table)
    (stack : List Value) (name : Nat) : Option (Table × List Value) :=
  match stack with
  | [] => none
  | v :: rest => (table_set hash globals name v).map fun p => (p.1, rest)

/-- Step of the `OP_SET_GLOBAL` case of debug.c `run` (lines 499–507):
`table_set` reports whether the key was new; a new key is deleted again
("delete zombie value") and "Undefined variable" is raised; otherwise the
assigned value is left on the stack (peek, not pop). -/
def op_set_global (hash : Nat → Nat) (globals : Table)
    (stack : List Value) (name : Nat) :
    Option (Table × List Value × Option RuntimeErr) :=
  match stack with
  | [] => none
  | v :: rest =>
    (table_set hash globals name v).bind fun p =>
      if p.2 then
        (table_delete hash p.1 name).map fun q =>
          (q.1, v :: rest, some (.undefinedVariable name))
      else some (p.1, v :: rest, none)

/-! ## Pratt compiler, expression/print fragment (src/unnamed/part_003)

The embedding covers the fragment of the compiler exercised by the claims:
number literals, grouping, unary `-`/`!`, the binary operators, `nil`,
`true`, `false`, `print` statements and expression statements.  Constructs
outside this fragment (variables, strings, `and`/`or`, calls, property
access, control flow, declarations) set the explicit `outside` flag instead
of being translated, so a run that stays inside the fragment is a faithful
trace of the C compiler. -/

/-- Emitted byte: an opcode or an operand byte (the C chunk is a raw byte
array; the tag only records which of the two a byte position holds). -/
inductive CodeByte where
  | op (o : OpCode)
  | b (n : Nat)
deriving DecidableEq, Repr

/-- Precedence ladder from part_003 (`Precedence`), `PREC_NONE` lowest. -/
def PREC_NONE : Nat := 0
/-- Precedence level of `=`. -/
def PREC_ASSIGNMENT : Nat := 1
/-- Precedence level of `or`. -/
def PREC_OR : Nat := 2
/-- Precedence level of `and`. -/
def PREC_AND : Nat := 3
/-- Precedence level of `==` and `!=`. -/
def PREC_EQUALITY : Nat := 4
/-- Precedence level of the comparisons. -/
def PREC_COMPARISON : Nat := 5
/-- Precedence level of `+` and `-`. -/
def PREC_TERM : Nat := 6
/-- Precedence level of `*` and `/`. -/
def PREC_FACTOR : Nat := 7
/-- Precedence level of prefix `!` and `-`. -/
def PREC_UNARY : Nat := 8
/-- Precedence level of `.` and `()`. -/
def PREC_CALL : Nat := 9
/-- Top of the precedence ladder. -/
def PREC_PRIMARY : Nat := 10

/-- Prefix-rule column of the part_003 `rules` table; `outsideModel` stands
for the prefix functions not translated here (`variable`, `string`,
`this_`). -/
inductive PrefixKind where
  | grouping | unary | numberK | literal | outsideModel
deriving DecidableEq, Repr

/-- Infix-rule column of the part_003 `rules` table; `outsideModel` stands
for `call`, `dot`, `and_` and `or_`. -/
inductive InfixKind where
  | binary | outsideModel
deriving DecidableEq, Repr

/-- Prefix rules of the part_003 `rules` table. -/
def rulePrefix : TokenType → Option PrefixKind
  | .leftParen => some .grouping
  | .minus => some .unary
  | .bang => some .unary
  | .identifier => some .outsideModel
  | .stringLit => some .outsideModel
  | .number => some .numberK
  | .kwFalse => some .literal
  | .kwNil => some .literal
  | .kwTrue => some .literal
  | .kwThis => some .outsideModel
  | _ => none

/-- Infix rules of the part_003 `rules` table. -/
def ruleInfix : TokenType → Option InfixKind
  | .leftParen => some .outsideModel
  | .dot => some .outsideModel
  | .minus => some .binary
  | .plus => some .binary
  | .slash => some .binary
  | .star => some .binary
  | .bangEqual => some .binary
  | .equalEqual => some .binary
  | .greater => some .binary
  | .greaterEqual => some .binary
  | .less => some .binary
  | .lessEqual => some .binary
  | .kwAnd => some .outsideModel
  | .kwOr => some .outsideModel
  | _ => none

/-- Precedence column of the part_003 `rules` table.  (As in the source,
`TOKEN_AND` and `TOKEN_OR` carry `PREC_NONE` there.) -/
def rulePrec : TokenType → Nat
  | .leftParen => PREC_CALL
  | .dot => PREC_CALL
  | .minus => PREC_TERM
  | .plus => PREC_TERM
  | .slash => PREC_FACTOR
  | .star => PREC_FACTOR
  | .bangEqual => PREC_EQUALITY
  | .equalEqual => PREC_EQUALITY
  | .greater => PREC_COMPARISON
  | .greaterEqual => PREC_COMPARISON
  | .less => PREC_COMPARISON
  | .lessEqual => PREC_COMPARISON
  | _ => PREC_NONE

/-- Value of an integral number literal, as `strtod` reads it (part_003
`number`); every literal in the programs considered here is integral, so
the idealized-double value is exact. -/
def numValue (lexeme : List Char) : Int :=
  (lexeme.takeWhile is_digit).foldl (fun n c => n * 10 + ((c.toNat : Int) - 48)) 0

/-- Parser-and-emitter state from part_003: the pending token stream (the
scanner runs on demand in C, but it is a pure function of the source
position, so pre-scanning yields the identical stream), the `prev`/`cur`
tokens, the error flags, the emitted chunk and its constant pool, and the
explicit `outside` model-boundary flag. -/
structure PState where
  toks : List Token
  prev : Token
  cur : Token
  hadError : Bool
  panicMode : Bool
  outside : Bool
  code : List CodeByte
  constants : List Value
deriving DecidableEq, Repr

/-- Error reporting from part_003 `error_at`: suppressed in panic mode,
otherwise sets both `panic_mode` and `had_error` (the printed message goes
to stderr and is not part of the modelled observable state). -/
def perror_at (p : PState) : PState :=
  if p.panicMode then p else { p with panicMode := true, hadError := true }

/-- Pull the next token (`scan_token` at the current position); past the
end the C scanner keeps producing EOF tokens. -/
def pullTok (toks : List Token) (line : Nat) : List Token × Token :=
  match toks with
  | [] => ([], ⟨.eof, [], line⟩)
  | t :: rest => (rest, t)

/-- Loop body of part_003 `advance`: pull tokens, reporting and skipping
ERROR tokens. -/
def padvanceGo : Nat → PState → PState
  | 0, p => p
  | fuel + 1, p =>
    let pr := pullTok p.toks p.cur.line
    let p2 := { p with toks := pr.1, cur := pr.2 }
    if pr.2.type = .error then padvanceGo fuel (perror_at p2)
    else p2

/-- Token advance from part_003 `advance`. -/
def padvance (p : PState) : PState :=
  padvanceGo (p.toks.length + 1) { p with prev := p.cur }

/-- Conditional consume from part_003 `consume`. -/
def pconsume (p : PState) (t : TokenType) : PState :=
  if p.cur.type = t then padvance p else perror_at p

/-- Byte emission from part_003 `emit_byte` / chunk.c `write_chunk`. -/
def emit_byte (p : PState) (cb : CodeByte) : PState :=
  { p with code := p.code ++ [cb] }

/-- Constant registration from part_003 `make_constant`: append to the
pool; an index above 255 reports "Too many constants in one chunk." and
yields 0. -/
def make_constant (p : PState) (v : Value) : PState × Nat :=
  let ks := p.constants ++ [v]
  let idx := ks.length - 1
  if idx > 255 then (perror_at { p with constants := ks }, 0)
  else ({ p with constants := ks }, idx)

/-- Emission from part_003 `emit_constant`. -/
def emit_constant (p : PState) (v : Value) : PState :=
  let r := make_constant p v
  emit_byte (emit_byte r.1 (.op .constant)) (.b r.2)

/-- Operator emission of part_003 `binary` (the switch after the operand
has been compiled). -/
def emitBinaryOp (p : PState) (t : TokenType) : PState :=
  match t with
  | .bangEqual => emit_byte (emit_byte p (.op .equal)) (.op .notOp)
  | .equalEqual => emit_byte p (.op .equal)
  | .greater => emit_byte p (.op .greater)
  | .greaterEqual => emit_byte (emit_byte p (.op .less)) (.op .notOp)
  | .less => emit_byte p (.op .less)
  | .lessEqual => emit_byte (emit_byte p (.op .greater)) (.op .notOp)
  | .plus => emit_byte p (.op .add)
  | .minus => emit_byte p (.op .subtract)
  | .star => emit_byte p (.op .multiply)
  | .slash => emit_byte p (.op .divide)
  | _ => p

mutual

/-- Pratt driver from part_003 `parse_precedence`: advance, run the prefix
rule ("Expect expression." when there is none), then fold infix rules while
`precedence <= get_rule(parser.cur.type)->precedence`, and finally reject a
stray `=` when assignment was allowed.  NOTE the `unary` rule compiles its
operand with `parse_precedence(PREC_ASSIGNMENT)`, exactly as in part_003
line 477 (and compiler.c line 202). -/
def parse_precedence : Nat → Nat → PState → PState
  | 0, _, p => { p with outside := true }
  | fuel + 1, prec, p0 =>
    let p := padvance p0
    match rulePrefix p.prev.type with
    | none => perror_at p
    | some pk =>
      let p1 :=
        match pk with
        | .numberK => emit_constant p (.num (numValue p.prev.lexeme))
        | .literal =>
          match p.prev.type with
          | .kwFalse => emit_byte p (.op .falseLit)
          | .kwNil => emit_byte p (.op .nilLit)
          | .kwTrue => emit_byte p (.op .trueLit)
          | _ => p
        | .grouping =>
          pconsume (parse_precedence fuel PREC_ASSIGNMENT p) .rightParen
        | .unary =>
          let opType := p.prev.type
          let q := parse_precedence fuel PREC_ASSIGNMENT p
          match opType with
          | .minus => emit_byte q (.op .negate)
          | .bang => emit_byte q (.op .notOp)
          | _ => q
        | .outsideModel => { p with outside := true }
      let p2 := infix_loop fuel prec p1
      if prec ≤ PREC_ASSIGNMENT ∧ p2.cur.type = .equal then
        perror_at (padvance p2)
      else p2

/-- Infix loop of part_003 `parse_precedence`. -/
def infix_loop : Nat → Nat → PState → PState
  | 0, _, p => { p with outside := true }
  | fuel + 1, prec, p =>
    if prec ≤ rulePrec p.cur.type then
      let p1 := padvance p
      let p2 :=
        match ruleInfix p1.prev.type with
        | some .binary =>
          let opType := p1.prev.type
          emitBinaryOp (parse_precedence fuel (rulePrec opType + 1) p1) opType
        | _ => { p1 with outside := true }
      infix_loop fuel prec p2
    else p

end

/-- Expression entry point from part_003 `expression`. -/
def expressionM (fuel : Nat) (p : PState) : PState :=
  parse_precedence fuel PREC_ASSIGNMENT p

/-- Statement from part_003 `print_statement`. -/
def print_statement (fuel : Nat) (p : PState) : PState :=
  emit_byte (pconsume (expressionM fuel p) .semicolon) (.op .print)

/-- Statement from part_003 `expression_statement`. -/
def expression_statement (fuel : Nat) (p : PState) : PState :=
  emit_byte (pconsume (expressionM fuel p) .semicolon) (.op .pop)

/-- Statement dispatch from part_003 `statement`; the control-flow and
block statements are outside the embedded fragment. -/
def statementM (fuel : Nat) (p : PState) : PState :=
  if p.cur.type = .kwPrint then print_statement fuel (padvance p)
  else if p.cur.type = .kwIf ∨ p.cur.type = .kwReturn ∨ p.cur.type = .kwWhile ∨
      p.cur.type = .kwFor ∨ p.cur.type = .leftBrace then
    { p with outside := true }
  else expression_statement fuel p

/-- Panic-mode recovery loop from part_003 `sync`. -/
def syncGo : Nat → PState → PState
  | 0, p => p
  | fuel + 1, p =>
    if p.cur.type = .eof then p
    else if p.prev.type = .semicolon then p
    else
      match p.cur.type with
      | .kwClass | .kwFun | .kwVar | .kwFor | .kwIf | .kwWhile
      | .kwPrint | .kwReturn => p
      | _ => syncGo fuel (padvance p)

/-- Declaration dispatch from part_003 `declaration`, with panic-mode
synchronization; `class`, `fun` and `var` declarations are outside the
embedded fragment. -/
def declarationM (fuel : Nat) (p : PState) : PState :=
  let p1 :=
    if p.cur.type = .kwClass ∨ p.cur.type = .kwFun ∨ p.cur.type = .kwVar then
      { p with outside := true }
    else statementM fuel p
  if p1.panicMode then syncGo (p1.toks.length + 1) { p1 with panicMode := false }
  else p1

/-- Top-level loop of part_003 `compile`:
`while (!match(TOKEN_EOF)) declaration();`. -/
def compileGo (fuel : Nat) : Nat → PState → PState
  | 0, p => { p with outside := true }
  | n + 1, p =>
    if p.cur.type = .eof then padvance p
    else compileGo fuel n (declarationM fuel p)

/-- Compiled top-level function: its chunk and constant pool (part_003
`ObjFunction` as far as the claims consult it; the top-level arity is 0). -/
structure ObjFunctionM where
  code : List CodeByte
  constants : List Value
deriving DecidableEq, Repr

/-- Scanner loop producing the token stream for a source text. -/
def scanAllGo : Nat → ScanState → List Token
  | 0, _ => []
  | fuel + 1, s =>
    let r := scan_token s
    if r.2.type = .eof then [r.2] else r.2 :: scanAllGo fuel r.1

/-- Complete token stream of a source text (ending in EOF). -/
def scanAll (source : String) : List Token :=
  scanAllGo (source.length + 1) ⟨source.toList, 1⟩

/-- Compiler entry point from part_003 `compile`: scan, advance once,
compile declarations until EOF, then `end_compiler` emits
`OP_NIL, OP_RETURN` (part_003 `emit_return`).  The outer `Option` is the
model boundary (`none` when the program leaves the embedded fragment); the
inner one is the C result (`none` = `had_error`, compile error). -/
def compileM (source : String) : Option (Option ObjFunctionM) :=
  let toks := scanAll source
  let init : PState :=
    ⟨toks, ⟨.eof, [], 0⟩, ⟨.eof, [], 0⟩, false, false, false, [], []⟩
  let p := padvance init
  let p2 := compileGo (toks.length + 1) (toks.length + 1) p
  let p3 := emit_byte (emit_byte p2 (.op .nilLit)) (.op .ret)
  if p3.outside then none
  else some (if p3.hadError then none else some ⟨p3.code, p3.constants⟩)

/-! ## VM execution loop, straight-line fragment (debug.c `run`) -/

/-- Truthiness from debug.c `is_falsey`: `nil` and `false`. -/
def is_falsey (v : Value) : Bool :=
  match v with
  | .nil => true
  | .bool b => !b
  | _ => false

/-- Textual form of a value.  Numbers follow value.c `print_value`'s `%g`,
which prints integral doubles without a decimal point; the remaining tags
(whose printing routine is not under src/) are modelled from the spec and
are not exercised by any claim. -/
def printValue : Value → String
  | .num n => toString n
  | .nil => "nil"
  | .bool true => "true"
  | .bool false => "false"
  | .obj _ => "<obj>"

/-- Result of `interpret` (vm.h `InterpretResult`). -/
inductive VMOutcome where
  | ok
  | compileError
  | runtimeError
deriving DecidableEq, Repr

/-- Dispatch loop from the final `run` in debug.c, for the straight-line
single-frame programs the claims execute; `out` accumulates stdout.
`OP_CONSTANT` is translated verbatim from debug.c lines 449–455: it pushes
the constant AND prints it followed by a newline.  Opcodes outside the
fragment (locals, globals, jumps, calls, closures, properties) and string
concatenation return `none`, the model boundary; `OP_DIVIDE` also sits
outside because idealized integers cannot represent double division.
`OP_RETURN` is the `frame_count == 1` top-level case: pop the result, then
pop the script closure and stop with `INTERPRET_OK`. -/
def runGo (code : List CodeByte) (constants : List Value) :
    Nat → Nat → List Value → String → Option (List Value × String × VMOutcome)
  | 0, _, _, _ => none
  | fuel + 1, ip, stack, out =>
    match code.get? ip with
    | none => none
    | some (.b _) => none
    | some (.op o) =>
      match o with
      | .constant =>
        match code.get? (ip + 1) with
        | some (.b idx) =>
          match constants.get? idx with
          | some v =>
            runGo code constants fuel (ip + 2) (v :: stack)
              (out ++ printValue v ++ "\n")
          | _ => none
        | _ => none
      | .nilLit => runGo code constants fuel (ip + 1) (.nil :: stack) out
      | .trueLit => runGo code constants fuel (ip + 1) (.bool true :: stack) out
      | .falseLit => runGo code constants fuel (ip + 1) (.bool false :: stack) out
      | .pop =>
        match stack with
        | _ :: rest => runGo code constants fuel (ip + 1) rest out
        | [] => none
      | .equal =>
        match stack with
        | b :: a :: rest =>
          runGo code constants fuel (ip + 1) (.bool (a = b) :: rest) out
        | _ => none
      | .greater =>
        match stack with
        | .num b :: .num a :: rest =>
          runGo code constants fuel (ip + 1) (.bool (a > b) :: rest) out
        | _ :: _ :: _ => some (stack, out, .runtimeError)
        | _ => none
      | .less =>
        match stack with
        | .num b :: .num a :: rest =>
          runGo code constants fuel (ip + 1) (.bool (a < b) :: rest) out
        | _ :: _ :: _ => some (stack, out, .runtimeError)
        | _ => none
      | .add =>
        match stack with
        | .num b :: .num a :: rest =>
          runGo code constants fuel (ip + 1) (.num (a + b) :: rest) out
        | .obj _ :: .obj _ :: _ => none
        | _ :: _ :: _ => some (stack, out, .runtimeError)
        | _ => none
      | .subtract =>
        match stack with
        | .num b :: .num a :: rest =>
          runGo code constants fuel (ip + 1) (.num (a - b) :: rest) out
        | _ :: _ :: _ => some (stack, out, .runtimeError)
        | _ => none
      | .multiply =>
        match stack with
        | .num b :: .num a :: rest =>
          runGo code constants fuel (ip + 1) (.num (a * b) :: rest) out
        | _ :: _ :: _ => some (stack, out, .runtimeError)
        | _ => none
      | .notOp =>
        match stack with
        | v :: rest =>
          runGo code constants fuel (ip + 1) (.bool (is_falsey v) :: rest) out
        | [] => none
      | .negate =>
        match stack with
        | .num n :: rest =>
          runGo code constants fuel (ip + 1) (.num (-n) :: rest) out
        | _ :: _ => some (stack, out, .runtimeError)
        | [] => none
      | .print =>
        match stack with
        | v :: rest =>
          runGo code constants fuel (ip + 1) rest (out ++ printValue v ++ "\n")
        | [] => none
      | .ret =>
        match stack with
        | _result :: _closure :: rest => some (rest, out, .ok)
        | _ => none
      | _ => none

/-- Entry point from debug.c `interpret`: compile, wrap the top-level
function in a closure pushed at the bottom of the stack, `call` it with
zero arguments and run.  The closure object's id is immaterial for these
programs. -/
def interpretM (source : String) : Option (String × VMOutcome) :=
  (compileM source).bind fun cf =>
    match cf with
    | none => some ("", .compileError)
    | some fn =>
      (runGo fn.code fn.constants (fn.code.length + 2) 0 [Value.obj 0] "").map
        fun r : List Value × String × VMOutcome => (r.2.1, r.2.2)

/-! ## Well-formedness of tables and VM fragments

These predicates characterize the states the C program actually reaches;
the heap invariants the C code relies on for termination and correctness
are spelled out so the theorems can quantify over all such states. -/

/-- Truly empty slot (`key == NULL && IS_NIL(value)`). -/
def isEmptySlot (e : Entry) : Bool := e.key == none && e.value == Value.nil

/-- Slot visited by the `d`-th probe for hash `h`. -/
def probeIdx (h cap d : Nat) : Nat := (h + d) % cap

/-- Non-empty (occupied or tombstone) slot test. -/
def slotFilled (E : List Entry) (i : Nat) : Bool :=
  match E.get? i with
  | some e => !(isEmptySlot e)
  | none => false

/-- Keys stored in an entry array. -/
def tableKeys (E : List Entry) : List Nat := E.filterMap Entry.key

/-- Key stored at slot `i`. -/
def slotKey (E : List Entry) (i : Nat) : Option Nat := (E.get? i).bind Entry.key

/-- Slot `i` lies on the probe path of hash `hk` and every strictly earlier
probe slot is non-empty — the invariant linear probing maintains for every
stored key, and the shape `find_entry` guarantees for the slot it returns. -/
def OnPath (hk : Nat) (E : List Entry) (i : Nat) : Prop :=
  ∃ d < E.length, probeIdx hk E.length d = i ∧
    ∀ d2 < d, slotFilled E (probeIdx hk E.length d2) = true

/-- Placement invariant at one slot: when the slot holds a key, the slot
lies on that key's probe path. -/
def PlacedAt (hash : Nat → Nat) (E : List Entry) (i : Nat) : Prop :=
  ∀ k ∈ (slotKey E i).toList, OnPath (hash k) E i

/-- Pairwise distinctness of stored keys, slot-indexed. -/
def KeysDistinct (E : List Entry) : Prop :=
  ∀ i < E.length, ∀ j < E.length, i ≠ j →
    slotKey E i = none ∨ slotKey E i ≠ slotKey E j

/-- Count of non-empty (occupied or tombstone) slots; table.c maintains
`len` equal to it. -/
def fillCount (E : List Entry) : Nat :=
  (E.filter fun e => !isEmptySlot e).length

/-- Count of occupied slots (stored keys). -/
def keyCount (E : List Entry) : Nat :=
  (E.filter fun e => e.key.isSome).length

/-- Freshly rebuilt arrays have no tombstones: a keyless slot is truly
empty. -/
def NoTombstones (E : List Entry) : Prop :=
  ∀ i < E.length, ∀ e ∈ (E.get? i).toList, e.key = none → e.value = .nil

/-- Well-formed table: `len` counts the non-empty slots, a truly empty slot
exists (unless the array is still unallocated), keys are not duplicated,
and every key sits on its own probe path.  Every table the C program builds
through `table_set`/`table_delete` satisfies this. -/
def TableWF (hash : Nat → Nat) (t : Table) : Prop :=
  t.len = fillCount t.entries ∧
  (t.entries = [] ∨ t.entries.any isEmptySlot = true) ∧
  KeysDistinct t.entries ∧
  ∀ i < t.entries.length, PlacedAt hash t.entries i

instance (hk : Nat) (E : List Entry) (i : Nat) : Decidable (OnPath hk E i) := by
  unfold OnPath
  infer_instance

instance (hash : Nat → Nat) (E : List Entry) (i : Nat) :
    Decidable (PlacedAt hash E i) := by
  unfold PlacedAt
  infer_instance

instance (E : List Entry) : Decidable (KeysDistinct E) := by
  unfold KeysDistinct
  infer_instance

instance (E : List Entry) : Decidable (NoTombstones E) := by
  unfold NoTombstones
  infer_instance

instance (hash : Nat → Nat) (t : Table) : Decidable (TableWF hash t) := by
  unfold TableWF
  infer_instance

/-- Binding present in an entry array. -/
def mapsToE (E : List Entry) (k : Nat) (v : Value) : Prop :=
  ∃ i < E.length, E.get? i = some ⟨some k, v⟩

/-- Binding present in a table. -/
def mapsTo (t : Table) (k : Nat) (v : Value) : Prop :=
  mapsToE t.entries k v

instance (E : List Entry) (k : Nat) (v : Value) : Decidable (mapsToE E k v) := by
  unfold mapsToE
  infer_instance

instance (t : Table) (k : Nat) (v : Value) : Decidable (mapsTo t k v) := by
  unfold mapsTo
  infer_instance

/-- Key present somewhere in the entry array. -/
def keyAt (E : List Entry) (k : Nat) : Prop :=
  ∃ i < E.length, slotKey E i = some k

instance (E : List Entry) (k : Nat) : Decidable (keyAt E k) := by
  unfold keyAt
  infer_instance

/-- Interning invariant for the C8 claim: the interner table is
well-formed, every key is a recorded string id below `nextId`, and no two
interned strings share their characters. -/
def InternWF (σ : InternState) : Prop :=
  TableWF σ.hashf σ.strings ∧
  (∀ k ∈ tableKeys σ.strings.entries, k < σ.nextId) ∧
  (σ.store.map Prod.fst).Nodup ∧
  (∀ p ∈ σ.store, p.1 < σ.nextId) ∧
  ∀ k1 ∈ tableKeys σ.strings.entries, ∀ k2 ∈ tableKeys σ.strings.entries,
    σ.chars k1 = σ.chars k2 → k1 = k2

instance (σ : InternState) : Decidable (InternWF σ) := by
  unfold InternWF
  infer_instance

/-- Location of the upvalue cell `u`, defaulting to 0 for closed or
dangling cells (the default is never consulted on well-formed states). -/
def locD (cells : List UpvalueCell) (u : Nat) : Nat :=
  (cellLoc cells u).getD 0

/-- Open-upvalue invariant (spec §3, §8): every id on `vm.open_upvalues`
names an existing, open cell whose location lies inside the current value
stack, and locations are strictly decreasing along the list. -/
def UVWF (σ : UVState) : Prop :=
  (∀ u ∈ σ.openUps, (cellLoc σ.cells u).isSome = true ∧
      locD σ.cells u < σ.stack.length) ∧
  (σ.openUps.map (locD σ.cells)).Pairwise fun a b => b < a

instance (σ : UVState) : Decidable (UVWF σ) := by
  unfold UVWF
  infer_instance

/-- Locations of the open-upvalue list, head first. -/
def openLocs (σ : UVState) : List Nat :=
  σ.openUps.map (locD σ.cells)

/-! ## Concrete states used by the individual claims -/

/-- A compiler for a script body inside one scope: slot 0 is the
implicit script local (empty name, depth 0) and slot 1 holds the local
`a`, initialized at depth 1 — the state part_003 reaches right after
compiling `{ var a = 1;` at the top level. -/
def compilerWithLocalA : CompilerSt :=
  .mk none [⟨[], 0, false⟩, ⟨['a'], 1, false⟩] [] []

/-- The part_003 compiler chain for
`fun outer() { var i = 0; fun inner() { i; } }` at the moment `inner`'s
body mentions `i`: the current compiler (for `inner`) has only its
reserved slot 0, and the enclosing compiler (for `outer`) holds the local
`i`. -/
def compilerInnerI : CompilerSt :=
  .mk (some (.mk none [⟨[], 0, false⟩, ⟨['i'], 1, false⟩] [] []))
    [⟨[], 0, false⟩] [] []

/-- A VM whose frame array is full: 64 active frames (vm.h `FRAMES_MAX`),
with one value (the callee) on the stack beyond the frames' slots. -/
def vmFullFrames : CallVMState :=
  ⟨List.replicate 64 ⟨⟨0⟩, 0, 0⟩, 1⟩

/-- A VM with a single active frame and the callee plus two arguments on
the stack. -/
def vmOneFrame : CallVMState :=
  ⟨[⟨⟨0⟩, 0, 0⟩], 5⟩

/-- The VM heap right after `init_vm`: object 0 is the interned `"init"`
string referenced only by `vm.init_string` and the interner, object 1 the
`"clock"` string and object 2 the clock native, both reachable through the
globals table.  No stack slot, frame, open upvalue or compiler root exists.
(Tables are laid out directly; the GC only iterates their entries.) -/
def gcInitVm : GCVm :=
  { stack := []
    frames := []
    open_upvalues := []
    globals := ⟨1, [⟨some 1, .obj 2⟩]⟩
    strings := ⟨2, [⟨some 0, .nil⟩, ⟨some 1, .nil⟩]⟩
    init_string := some 0
    compiler_functions := []
    objects := [2, 1, 0]
    heap := [(0, .str ("init".toList)), (1, .str ("clock".toList)), (2, .native)] }

/-- Identity hash used by concrete witness tables. -/
def idHash : Nat → Nat := fun k => k

/-- Concrete well-formed globals table binding key 1 to `5`, with one
tombstone left at slot 2 by a deletion — exercising both slot flavours. -/
def tableW : Table :=
  ⟨2, [⟨none, .nil⟩, ⟨some 1, .num 5⟩, ⟨none, .bool true⟩, ⟨none, .nil⟩,
       ⟨none, .nil⟩, ⟨none, .nil⟩, ⟨none, .nil⟩, ⟨none, .nil⟩]⟩

/-- Concrete open-upvalue state: stack of four slots, two open upvalues at
slots 3 and 1 (strictly decreasing), plus an unrelated closed cell. -/
def uvW : UVState :=
  ⟨[.num 10, .num 11, .num 12, .num 13],
   [⟨some 3, .nil⟩, ⟨some 1, .nil⟩, ⟨none, .num 7⟩],
   [0, 1]⟩

/-! # Theorems

First a layer of lemmas about the probe walk of `find_entry`, on which the
globals-table claims (C6, C10) and the interning claim (C8) rest. -/

theorem probeIdx_lt (h cap d : Nat) (hc : 0 < cap) : probeIdx h cap d < cap :=
  Nat.mod_lt _ hc

theorem probeIdx_inj (h : Nat) {cap d1 d2 : Nat} (h1 : d1 < cap) (h2 : d2 < cap)
    (he : probeIdx h cap d1 = probeIdx h cap d2) : d1 = d2 := by
  unfold probeIdx at he
  have hc : (h + d1) % cap = (h + d2) % cap := he
  have hmod : d1 % cap = d2 % cap := Nat.ModEq.add_left_cancel' h hc
  rwa [Nat.mod_eq_of_lt h1, Nat.mod_eq_of_lt h2] at hmod

theorem probeIdx_surj (h cap i : Nat) (hi : i < cap) :
    ∃ d < cap, probeIdx h cap d = i := by
  have hc : 0 < cap := by omega
  refine ⟨(cap + i - h % cap) % cap, Nat.mod_lt _ hc, ?_⟩
  unfold probeIdx
  have hmod := Nat.div_add_mod h cap
  have hlt : h % cap < cap := Nat.mod_lt _ hc
  have h1 : (h + (cap + i - h % cap) % cap) % cap
      = (h + (cap + i - h % cap)) % cap := by
    conv_lhs => rw [Nat.add_mod]
    conv_rhs => rw [Nat.add_mod]
    rw [Nat.mod_mod]
  rw [h1]
  obtain ⟨q, hq⟩ : ∃ q, cap * (h / cap) = q := ⟨_, rfl⟩
  rw [hq] at hmod
  have h2 : h + (cap + i - h % cap) = q + cap + i := by omega
  rw [h2]
  have h3 : q + cap + i = cap * (h / cap) + (cap + i) := by omega
  rw [h3, Nat.mul_add_mod, Nat.add_mod_left, Nat.mod_eq_of_lt hi]

theorem get?_exists_of_lt {α : Type} (l : List α) (i : Nat) (h : i < l.length) :
    ∃ a, l.get? i = some a := ⟨l.get ⟨i, h⟩, List.get?_eq_get h⟩

theorem isEmptySlot_iff (e : Entry) :
    isEmptySlot e = true ↔ e.key = none ∧ e.value = .nil := by
  unfold isEmptySlot
  simp

theorem slotFilled_of_get {E : List Entry} {i : Nat} {e : Entry}
    (he : E.get? i = some e) : slotFilled E i = !isEmptySlot e := by
  unfold slotFilled
  rw [he]

theorem slotKey_of_get {E : List Entry} {i : Nat} {e : Entry}
    (he : E.get? i = some e) : slotKey E i = e.key := by
  unfold slotKey
  rw [he]
  rfl

/-- Walk of `find_entry` when the key is stored at slot `j`: the walk stops
at `j` (a tombstone passed on the way does not matter because a key match
returns directly). -/
theorem find_entry_go_present (E : List Entry) (hk kid j dj : Nat)
    (hdj : dj < E.length) (hpj : probeIdx hk E.length dj = j)
    (hpath : ∀ d2 < dj, slotFilled E (probeIdx hk E.length d2) = true)
    (hkey : slotKey E j = some kid)
    (hdis : KeysDistinct E) :
    ∀ fuel d tomb, d ≤ dj → dj - d < fuel →
      find_entry_go E E.length hk kid fuel d tomb = some j := by
  intro fuel
  induction fuel with
  | zero => omega
  | succ f ih =>
    intro d tomb hd hf
    have hn : 0 < E.length := by omega
    have hjlt : j < E.length := hpj ▸ probeIdx_lt hk E.length dj hn
    have hi : (hk + d) % E.length < E.length := Nat.mod_lt _ hn
    obtain ⟨e, he⟩ := get?_exists_of_lt E _ hi
    unfold find_entry_go
    simp only [he]
    by_cases hdd : d = dj
    · subst hdd
      have hij : (hk + d) % E.length = j := hpj
      rw [hij] at he
      have hek : e.key = some kid := by
        have := slotKey_of_get he
        rw [hkey] at this
        exact this.symm
      simp [hek, hij]
    · have hdlt : d < dj := by omega
      have hfill := hpath d hdlt
      unfold probeIdx at hfill
      rw [slotFilled_of_get he] at hfill
      have hne : isEmptySlot e = false := by
        cases hemp : isEmptySlot e
        · rfl
        · rw [hemp] at hfill; simp at hfill
      cases hek : e.key with
      | some k2 =>
        have hkne : k2 ≠ kid := by
          intro hkk
          subst hkk
          have hik : slotKey E ((hk + d) % E.length) = some k2 := by
            rw [slotKey_of_get he, hek]
          have hij : (hk + d) % E.length ≠ j := by
            intro hcontra
            have hpd : probeIdx hk E.length d = probeIdx hk E.length dj := by
              unfold probeIdx
              rw [hcontra]
              exact hpj.symm
            have : d = dj := probeIdx_inj hk (show d < E.length by omega) hdj hpd
            omega
          rcases hdis _ hi _ hjlt hij with hnone | hneq
          · rw [hik] at hnone; exact Option.noConfusion hnone
          · rw [hik, hkey] at hneq; exact hneq rfl
        simp only [hek, if_neg hkne]
        exact ih (d + 1) tomb (by omega) (by omega)
      | none =>
        have hv : ¬ e.value = Value.nil := by
          intro hvv
          rw [(isEmptySlot_iff e).mpr ⟨hek, hvv⟩] at hne
          exact Bool.noConfusion hne
        simp only [hek, if_neg hv]
        exact ih (d + 1) _ (by omega) (by omega)

/-- Walk of `find_entry` when the key is absent: with `D` the first empty
probe offset, the walk returns a keyless slot on the key's probe path (the
first tombstone if one precedes `D`, otherwise the empty slot itself). -/
theorem find_entry_go_absent (E : List Entry) (hk kid D : Nat)
    (hD : D < E.length)
    (hDe : slotFilled E (probeIdx hk E.length D) = false)
    (hDl : ∀ d2 < D, slotFilled E (probeIdx hk E.length d2) = true)
    (habs : ∀ i < E.length, slotKey E i ≠ some kid) :
    ∀ fuel d tomb, d ≤ D → D - d < fuel →
      (∀ r0, tomb = some r0 →
        (∃ e0, E.get? r0 = some e0 ∧ e0.key = none) ∧ OnPath hk E r0) →
      ∃ r, find_entry_go E E.length hk kid fuel d tomb = some r ∧
        (∃ e, E.get? r = some e ∧ e.key = none) ∧ OnPath hk E r := by
  intro fuel
  induction fuel with
  | zero => omega
  | succ f ih =>
    intro d tomb hd hf htomb
    have hn : 0 < E.length := by omega
    have hi : (hk + d) % E.length < E.length := Nat.mod_lt _ hn
    obtain ⟨e, he⟩ := get?_exists_of_lt E _ hi
    unfold find_entry_go
    simp only [he]
    by_cases hdd : d = D
    · subst hdd
      have hfe := hDe
      unfold probeIdx at hfe
      rw [slotFilled_of_get he] at hfe
      have hemp : isEmptySlot e = true := by
        cases hx : isEmptySlot e
        · rw [hx] at hfe; simp at hfe
        · rfl
      obtain ⟨hek, hev⟩ := (isEmptySlot_iff e).mp hemp
      simp only [hek, hev, if_pos rfl, if_true]
      cases tomb with
      | some t2 =>
        exact ⟨t2, rfl, htomb t2 rfl⟩
      | none =>
        refine ⟨(hk + d) % E.length, rfl, ⟨e, he, hek⟩, d, by omega, rfl, ?_⟩
        intro d2 hd2
        exact hDl d2 hd2
    · have hdlt : d < D := by omega
      have hfill := hDl d hdlt
      unfold probeIdx at hfill
      rw [slotFilled_of_get he] at hfill
      have hne : isEmptySlot e = false := by
        cases hemp : isEmptySlot e
        · rfl
        · rw [hemp] at hfill; simp at hfill
      cases hek : e.key with
      | some k2 =>
        have hkne : k2 ≠ kid := by
          intro hkk
          subst hkk
          exact habs _ hi (by rw [slotKey_of_get he, hek])
        simp only [hek, if_neg hkne]
        exact ih (d + 1) tomb (by omega) (by omega) htomb
      | none =>
        have hv : ¬ e.value = Value.nil := by
          intro hvv
          rw [(isEmptySlot_iff e).mpr ⟨hek, hvv⟩] at hne
          exact Bool.noConfusion hne
        simp only [hek, if_neg hv]
        refine ih (d + 1) _ (by omega) (by omega) ?_
        intro r0 hr0
        cases tomb with
        | some t2 =>
          simp at hr0
          subst hr0
          exact htomb t2 rfl
        | none =>
          simp at hr0
          subst hr0
          refine ⟨⟨e, he, hek⟩, d, by omega, rfl, ?_⟩
          intro d2 hd2
          exact hDl d2 (by omega)

/-- `find_entry` on a well-formed array returns the slot of a stored key. -/
theorem find_entry_present (E : List Entry) (hash : Nat → Nat) (kid j : Nat)
    (hkey : slotKey E j = some kid) (hj : j < E.length)
    (hplace : ∀ i < E.length, PlacedAt hash E i)
    (hdis : KeysDistinct E) :
    find_entry E E.length (hash kid) kid = some j := by
  have hp := hplace j hj
  unfold PlacedAt at hp
  rw [hkey] at hp
  have hop : OnPath (hash kid) E j := hp kid (by simp)
  obtain ⟨dj, hdj, hpj, hpath⟩ := hop
  exact find_entry_go_present E (hash kid) kid j dj hdj hpj hpath hkey hdis
    E.length 0 none (by omega) (by omega)

theorem any_empty {E : List Entry} (h : E.any isEmptySlot = true) :
    ∃ i < E.length, ∃ e, E.get? i = some e ∧ isEmptySlot e = true := by
  rw [List.any_eq_true] at h
  obtain ⟨x, hx, hpx⟩ := h
  obtain ⟨n, hn⟩ := List.get?_of_mem hx
  exact ⟨n, (List.get?_eq_some.mp hn).choose, x, hn, hpx⟩

/-- `find_entry` on a well-formed array with an absent key stops at a
keyless slot on the key's probe path. -/
theorem find_entry_absent (E : List Entry) (hk kid : Nat)
    (hempty : E.any isEmptySlot = true)
    (habs : ∀ i < E.length, slotKey E i ≠ some kid) :
    ∃ r, find_entry E E.length hk kid = some r ∧
      (∃ e, E.get? r = some e ∧ e.key = none) ∧ OnPath hk E r := by
  obtain ⟨i0, hi0, e0, he0, hemp0⟩ := any_empty hempty
  have hn : 0 < E.length := by omega
  obtain ⟨d0, hd0, hpd0⟩ := probeIdx_surj hk E.length i0 hi0
  have hP0 : slotFilled E (probeIdx hk E.length d0) = false := by
    rw [hpd0, slotFilled_of_get he0, hemp0]
    rfl
  have hex : ∃ d, slotFilled E (probeIdx hk E.length d) = false := ⟨d0, hP0⟩
  have hDspec := Nat.find_spec hex
  have hDlt : Nat.find hex < E.length :=
    Nat.lt_of_le_of_lt (Nat.find_min' hex hP0) hd0
  have hDl : ∀ d2 < Nat.find hex, slotFilled E (probeIdx hk E.length d2) = true := by
    intro d2 hd2
    have := Nat.find_min hex hd2
    cases hx : slotFilled E (probeIdx hk E.length d2)
    · exact absurd hx this
    · rfl
  exact find_entry_go_absent E hk kid (Nat.find hex) hDlt hDspec hDl habs
    E.length 0 none (by omega) (by omega) (by intro r0 h; exact absurd h (by simp))

/-- Non-full arrays have an empty slot. -/
theorem any_empty_of_fillCount_lt {E : List Entry} (h : fillCount E < E.length) :
    E.any isEmptySlot = true := by
  by_contra hany
  have hall : ∀ e ∈ E, (!isEmptySlot e) = true := by
    intro e he
    cases hx : isEmptySlot e
    · rfl
    · exact absurd (List.any_eq_true.mpr ⟨e, he, hx⟩) hany
  have : fillCount E = E.length := by
    unfold fillCount
    rw [List.filter_eq_self.mpr hall]
  omega

/-- A stored entry makes the fill count positive. -/
theorem fillCount_pos {E : List Entry} {j : Nat} {e : Entry}
    (he : E.get? j = some e) (hne : isEmptySlot e = false) :
    0 < fillCount E := by
  have hmem : e ∈ E := List.get?_mem he
  have : e ∈ E.filter fun x => !isEmptySlot x :=
    List.mem_filter.mpr ⟨hmem, by rw [hne]; rfl⟩
  unfold fillCount
  exact List.length_pos.mpr (List.ne_nil_of_mem this)

/-- Filter count after overwriting one slot. -/
theorem length_filter_set {α : Type} (p : α → Bool) (l : List α) (i : Nat)
    (a b : α) (hb : l.get? i = some b) :
    ((l.set i a).filter p).length + (if p b then 1 else 0) =
      (l.filter p).length + (if p a then 1 else 0) := by
  induction l generalizing i with
  | nil => simp at hb
  | cons x xs ih =>
    cases i with
    | zero =>
      have hbx : x = b := by simpa using hb
      subst hbx
      simp only [List.set, List.filter_cons]
      cases hpa : p a <;> cases hpx : p x <;> simp [hpa, hpx]
    | succ n =>
      have hb2 : xs.get? n = some b := hb
      have := ih n hb2
      simp only [List.set, List.filter_cons]
      cases hpx : p x <;> simp [hpx] <;> omega

/-- `fillCount` after overwriting one slot. -/
theorem fillCount_set (E : List Entry) (i : Nat) (a b : Entry)
    (hb : E.get? i = some b) :
    fillCount (E.set i a) + (if isEmptySlot b then 0 else 1) =
      fillCount E + (if isEmptySlot a then 0 else 1) := by
  have := length_filter_set (fun e => !isEmptySlot e) E i a b hb
  unfold fillCount
  cases ha : isEmptySlot a <;> cases hbb : isEmptySlot b <;>
    simp [ha, hbb] at this ⊢ <;> omega

theorem slotKey_set_ne (E : List Entry) (r : Nat) (a : Entry) {j : Nat}
    (hne : j ≠ r) : slotKey (E.set r a) j = slotKey E j := by
  unfold slotKey
  rw [List.get?_set_ne _ _ (fun h => hne h.symm)]

theorem slotKey_set_self (E : List Entry) (r : Nat) (a : Entry)
    (hr : r < E.length) : slotKey (E.set r a) r = a.key := by
  unfold slotKey
  rw [List.get?_set_eq_of_lt _ hr]
  rfl

theorem slotFilled_set_mono (E : List Entry) (r : Nat) (a : Entry)
    (ha : isEmptySlot a = false) (j : Nat)
    (hj : slotFilled E j = true) : slotFilled (E.set r a) j = true := by
  by_cases hjr : j = r
  · subst hjr
    have hlt : j < E.length := by
      unfold slotFilled at hj
      cases hq : E.get? j with
      | none => rw [hq] at hj; simp at hj
      | some e => exact (List.get?_eq_some.mp hq).choose
    unfold slotFilled
    rw [List.get?_set_eq_of_lt _ hlt]
    show (!isEmptySlot a) = true
    rw [ha]
    rfl
  · unfold slotFilled at hj ⊢
    rw [List.get?_set_ne _ _ (fun h => hjr h.symm)]
    exact hj

theorem OnPath_set_mono (hk : Nat) (E : List Entry) (r : Nat) (a : Entry)
    (ha : isEmptySlot a = false) {i : Nat}
    (hp : OnPath hk E i) : OnPath hk (E.set r a) i := by
  obtain ⟨d, hd, hpd, hpath⟩ := hp
  refine ⟨d, by simpa using hd, by simpa using hpd, ?_⟩
  intro d2 hd2
  have := hpath d2 hd2
  have hlen : (E.set r a).length = E.length := by simp
  rw [hlen]
  exact slotFilled_set_mono E r a ha _ this

/-- Distinctness and placement survive writing a non-empty entry at a slot
that either already holds the written key or is keyless while the key is
absent, provided the slot lies on the key's probe path. -/
theorem set_slot_master (hash : Nat → Nat) (E : List Entry) (r : Nat)
    (a : Entry) (ha : isEmptySlot a = false)
    (hr : r < E.length)
    (hplace : ∀ i < E.length, PlacedAt hash E i)
    (hOnPath : ∀ k, a.key = some k → OnPath (hash k) E r)
    (hfresh : ∀ k, a.key = some k →
      slotKey E r = some k ∨ ∀ i < E.length, slotKey E i ≠ some k)
    (hdis : KeysDistinct E) :
    KeysDistinct (E.set r a) ∧
      ∀ i < (E.set r a).length, PlacedAt hash (E.set r a) i := by
  have hlen : (E.set r a).length = E.length := by simp
  constructor
  · intro i hi j hj hij
    rw [hlen] at hi hj
    by_cases hir : i = r
    · subst hir
      rw [slotKey_set_self E i a hr]
      cases hak : a.key with
      | none => exact Or.inl rfl
      | some k =>
        right
        rw [slotKey_set_ne E i a (fun h => hij h.symm) ]
        intro hcontra
        rcases hfresh k hak with hold | habs
        · rcases hdis i hi j hj hij with h1 | h2
          · rw [hold] at h1; exact Option.noConfusion h1
          · rw [hold, ← hcontra] at h2; exact h2 rfl
        · exact habs j hj hcontra.symm
    · by_cases hjr : j = r
      · subst hjr
        rw [slotKey_set_ne E j a hir, slotKey_set_self E j a hr]
        cases hak : a.key with
        | none =>
          cases hsk : slotKey E i with
          | none => exact Or.inl rfl
          | some k => exact Or.inr (by simp)
        | some k =>
          cases hsk : slotKey E i with
          | none => exact Or.inl rfl
          | some k2 =>
            right
            intro hcontra
            simp at hcontra
            subst hcontra
            rcases hfresh _ hak with hold | habs
            · rcases hdis i hi j hj hir with h1 | h2
              · rw [hsk] at h1; exact Option.noConfusion h1
              · rw [hsk, hold] at h2; exact h2 rfl
            · exact habs i hi (by rw [hsk])
      · rw [slotKey_set_ne E r a hir, slotKey_set_ne E r a hjr]
        exact hdis i hi j hj hij
  · intro i hi
    rw [hlen] at hi
    unfold PlacedAt
    intro k hk
    by_cases hir : i = r
    · subst hir
      rw [slotKey_set_self E i a hr] at hk
      simp at hk
      exact OnPath_set_mono _ E i a ha (hOnPath k hk)
    · rw [slotKey_set_ne E r a hir] at hk
      simp at hk
      have hp := hplace i hi
      unfold PlacedAt at hp
      rw [hk] at hp
      exact OnPath_set_mono _ E r a ha (hp k (by simp))

theorem slotKey_some_elim {E : List Entry} {j kid : Nat}
    (h : slotKey E j = some kid) :
    ∃ e, E.get? j = some e ∧ e.key = some kid := by
  unfold slotKey at h
  cases hq : E.get? j with
  | none => rw [hq] at h; exact Option.noConfusion h
  | some e => rw [hq] at h; exact ⟨e, rfl, h⟩

theorem mapsToE_set_self {E : List Entry} {r : Nat} (kid : Nat) (v : Value)
    (hr : r < E.length) : mapsToE (E.set r ⟨some kid, v⟩) kid v := by
  refine ⟨r, by simpa using hr, ?_⟩
  rw [List.get?_set_eq_of_lt _ hr]

theorem mapsToE_set_iff {E : List Entry} {r : Nat} {a : Entry} (k : Nat)
    (w : Value) (hr : r < E.length) (hak : a.key ≠ some k)
    (hrk : slotKey E r ≠ some k) :
    mapsToE (E.set r a) k w ↔ mapsToE E k w := by
  constructor
  · rintro ⟨i, hi, hget⟩
    rw [List.length_set] at hi
    by_cases hir : i = r
    · subst hir
      rw [List.get?_set_eq_of_lt _ hr] at hget
      have : a = ⟨some k, w⟩ := Option.some.inj hget
      rw [this] at hak
      exact absurd rfl hak
    · rw [List.get?_set_ne _ _ (fun h => hir h.symm)] at hget
      exact ⟨i, hi, hget⟩
  · rintro ⟨i, hi, hget⟩
    by_cases hir : i = r
    · subst hir
      rw [slotKey_of_get hget] at hrk
      exact absurd rfl hrk
    · exact ⟨i, by simpa using hi,
        by rw [List.get?_set_ne _ _ (fun h => hir h.symm)]; exact hget⟩

theorem fillCount_set_of_filled (E : List Entry) (i : Nat) (a b : Entry)
    (hb : E.get? i = some b) (hbf : isEmptySlot b = false)
    (haf : isEmptySlot a = false) :
    fillCount (E.set i a) = fillCount E := by
  have h := fillCount_set E i a b hb
  rw [hbf, haf] at h
  simpa using h

theorem fillCount_set_of_empty (E : List Entry) (i : Nat) (a b : Entry)
    (hb : E.get? i = some b) (hbe : isEmptySlot b = true)
    (haf : isEmptySlot a = false) :
    fillCount (E.set i a) = fillCount E + 1 := by
  have h := fillCount_set E i a b hb
  rw [hbe, haf] at h
  simpa using h

theorem getElem?_of_get? {α : Type} {l : List α} {i : Nat} {a : α}
    (h : l.get? i = some a) : l[i]? = some a := by
  rwa [List.get?_eq_getElem?] at h

/-- Probe-and-write phase of `table_set` on a well-formed table with spare
room: it succeeds, preserves well-formedness and capacity, reports
`is_new_key` exactly when the key was absent, stores the binding and leaves
every other binding untouched. -/
theorem table_set_probe_spec (hash : Nat → Nat) (t : Table) (kid : Nat)
    (v : Value) (hWF : TableWF hash t) (hroom : t.len + 1 < t.cap) :
    ∃ t2 isNew, table_set_probe hash t kid v = some (t2, isNew) ∧
      TableWF hash t2 ∧ t2.cap = t.cap ∧
      (isNew = true ↔ ¬ keyAt t.entries kid) ∧
      mapsTo t2 kid v ∧
      (∀ k, k ≠ kid → ∀ w, (mapsToE t2.entries k w ↔ mapsToE t.entries k w)) ∧
      t2.len ≤ t.len + 1 := by
  obtain ⟨hlen, hemp, hdis, hplace⟩ := hWF
  have hcapE : t.cap = t.entries.length := rfl
  have hroom2 : t.len + 1 < t.entries.length := by rw [← hcapE]; exact hroom
  have hcap0 : 0 < t.entries.length := by omega
  have hany : t.entries.any isEmptySlot = true := by
    rcases hemp with h0 | h1
    · rw [h0] at hcap0; simp at hcap0
    · exact h1
  have hNa : isEmptySlot (⟨some kid, v⟩ : Entry) = false := rfl
  by_cases hpres : keyAt t.entries kid
  · -- key already stored at slot j: overwrite, is_new = false
    obtain ⟨j, hj, hkj⟩ := hpres
    obtain ⟨e, hej, hek⟩ := slotKey_some_elim hkj
    have hej2 := getElem?_of_get? hej
    have hfe := find_entry_present t.entries hash kid j hkj hj hplace hdis
    have heNE : isEmptySlot e = false := by
      unfold isEmptySlot
      rw [hek]
      rfl
    have hfc := fillCount_set_of_filled t.entries j ⟨some kid, v⟩ e hej heNE hNa
    have hmaster := set_slot_master hash t.entries j ⟨some kid, v⟩ rfl hj hplace
      (fun k hk => by
        have hkk : kid = k := by simpa using hk
        subst hkk
        have hp := hplace j hj
        unfold PlacedAt at hp
        rw [hkj] at hp
        exact hp kid (by simp))
      (fun k hk => by
        have hkk : kid = k := by simpa using hk
        subst hkk
        exact Or.inl hkj)
      hdis
    have hWF2 : TableWF hash ⟨t.len, t.entries.set j ⟨some kid, v⟩⟩ := by
      refine ⟨?_, ?_, hmaster.1, ?_⟩
      · show t.len = fillCount (t.entries.set j ⟨some kid, v⟩)
        rw [hfc]
        exact hlen
      · right
        show (t.entries.set j ⟨some kid, v⟩).any isEmptySlot = true
        apply any_empty_of_fillCount_lt
        rw [hfc]
        simp only [List.length_set]
        omega
      · show ∀ i < (t.entries.set j ⟨some kid, v⟩).length,
          PlacedAt hash (t.entries.set j ⟨some kid, v⟩) i
        exact hmaster.2
    refine ⟨⟨t.len, t.entries.set j ⟨some kid, v⟩⟩, false,
      ?_, hWF2, ?_, ?_, ?_, ?_, ?_⟩
    · unfold table_set_probe
      rw [hcapE, hfe]
      simp [hej2, hek]
    · show (t.entries.set j ⟨some kid, v⟩).length = t.entries.length
      simp
    · exact ⟨fun h => absurd h (by simp), fun hcontra => absurd ⟨j, hj, hkj⟩ hcontra⟩
    · exact mapsToE_set_self kid v hj
    · intro k hk w
      exact mapsToE_set_iff k w hj (by simp [Ne.symm hk]) (by rw [hkj]; simp [Ne.symm hk])
    · show t.len ≤ t.len + 1
      omega
  · -- key absent: find a keyless slot on the path, is_new = true
    have habs : ∀ i < t.entries.length, slotKey t.entries i ≠ some kid := by
      intro i hi hcontra
      exact hpres ⟨i, hi, hcontra⟩
    obtain ⟨r, hfe, ⟨e, her, hek⟩, hOnP⟩ :=
      find_entry_absent t.entries (hash kid) kid hany habs
    have her2 := getElem?_of_get? her
    have hrlt : r < t.entries.length := (List.get?_eq_some.mp her).choose
    have hrk : slotKey t.entries r = none := by rw [slotKey_of_get her, hek]
    have hmaster := set_slot_master hash t.entries r ⟨some kid, v⟩ rfl hrlt hplace
      (fun k hk => by
        have hkk : kid = k := by simpa using hk
        subst hkk
        exact hOnP)
      (fun k hk => by
        have hkk : kid = k := by simpa using hk
        subst hkk
        exact Or.inr habs)
      hdis
    have hfc2 : fillCount (t.entries.set r ⟨some kid, v⟩) =
        (if e.value = Value.nil then t.len + 1 else t.len) := by
      by_cases hev : e.value = Value.nil
      · have hEe : isEmptySlot e = true := (isEmptySlot_iff e).mpr ⟨hek, hev⟩
        rw [fillCount_set_of_empty t.entries r ⟨some kid, v⟩ e her hEe hNa,
          if_pos hev]
        omega
      · have hEe : isEmptySlot e = false := by
          cases hx : isEmptySlot e
          · rfl
          · obtain ⟨_, h2⟩ := (isEmptySlot_iff e).mp hx
            exact absurd h2 hev
        rw [fillCount_set_of_filled t.entries r ⟨some kid, v⟩ e her hEe hNa,
          if_neg hev]
        omega
    have hfcle : fillCount (t.entries.set r ⟨some kid, v⟩) ≤ t.len + 1 := by
      rw [hfc2]
      split <;> omega
    have hWF2 : TableWF hash ⟨if e.value = Value.nil then t.len + 1 else t.len,
        t.entries.set r ⟨some kid, v⟩⟩ := by
      refine ⟨?_, ?_, hmaster.1, ?_⟩
      · show (if e.value = Value.nil then t.len + 1 else t.len) =
          fillCount (t.entries.set r ⟨some kid, v⟩)
        rw [hfc2]
      · right
        show (t.entries.set r ⟨some kid, v⟩).any isEmptySlot = true
        apply any_empty_of_fillCount_lt
        simp only [List.length_set]
        omega
      · show ∀ i < (t.entries.set r ⟨some kid, v⟩).length,
          PlacedAt hash (t.entries.set r ⟨some kid, v⟩) i
        exact hmaster.2
    refine ⟨⟨if e.value = Value.nil then t.len + 1 else t.len,
        t.entries.set r ⟨some kid, v⟩⟩, true,
      ?_, hWF2, ?_, ?_, ?_, ?_, ?_⟩
    · unfold table_set_probe
      rw [hcapE, hfe]
      simp [her2, hek]
    · show (t.entries.set r ⟨some kid, v⟩).length = t.entries.length
      simp
    · exact ⟨fun _ => hpres, fun _ => rfl⟩
    · exact mapsToE_set_self kid v hrlt
    · intro k hk w
      exact mapsToE_set_iff k w hrlt (by simp [Ne.symm hk]) (by rw [hrk]; simp)
    · show (if e.value = Value.nil then t.len + 1 else t.len) ≤ t.len + 1
      split <;> omega

theorem mapsToE_cons (x : Entry) (xs : List Entry) (k : Nat) (v : Value) :
    mapsToE (x :: xs) k v ↔ x = ⟨some k, v⟩ ∨ mapsToE xs k v := by
  constructor
  · rintro ⟨i, hi, hget⟩
    cases i with
    | zero => exact Or.inl (Option.some.inj hget)
    | succ n => exact Or.inr ⟨n, by simpa using hi, hget⟩
  · rintro (hx | ⟨i, hi, hget⟩)
    · exact ⟨0, by simp, by rw [show ((x :: xs).get? 0) = some x from rfl, hx]⟩
    · exact ⟨i + 1, by simpa using hi, hget⟩

theorem keyAt_cons (x : Entry) (xs : List Entry) (k : Nat) :
    keyAt (x :: xs) k ↔ x.key = some k ∨ keyAt xs k := by
  constructor
  · rintro ⟨i, hi, hget⟩
    cases i with
    | zero => exact Or.inl hget
    | succ n => exact Or.inr ⟨n, by simpa using hi, hget⟩
  · rintro (hx | ⟨i, hi, hget⟩)
    · exact ⟨0, by simp, hx⟩
    · exact ⟨i + 1, by simpa using hi, hget⟩

theorem keyCount_cons (x : Entry) (xs : List Entry) :
    keyCount (x :: xs) = (if x.key.isSome then 1 else 0) + keyCount xs := by
  unfold keyCount
  rw [List.filter_cons]
  cases h : x.key.isSome <;> simp [h]
  omega

theorem KeysDistinct_tail {x : Entry} {xs : List Entry}
    (h : KeysDistinct (x :: xs)) : KeysDistinct xs := by
  intro i hi j hj hij
  have := h (i + 1) (by simpa using hi) (j + 1) (by simpa using hj) (by omega)
  exact this

theorem noTomb_set_key (E : List Entry) (r k : Nat) (w : Value)
    (h : NoTombstones E) : NoTombstones (E.set r ⟨some k, w⟩) := by
  intro i hi e he hke
  rw [List.length_set] at hi
  by_cases hir : i = r
  · subst hir
    rw [List.get?_set_eq_of_lt _ hi] at he
    simp at he
    rw [he] at hke
    exact Option.noConfusion hke
  · rw [List.get?_set_ne _ _ (fun hh => hir hh.symm)] at he
    exact h i hi e he hke

theorem mapsToE_set_fresh (E : List Entry) (r k : Nat) (w : Value)
    (hr : r < E.length) (habs : ∀ i < E.length, slotKey E i ≠ some k) :
    ∀ v, mapsToE (E.set r ⟨some k, w⟩) k v ↔ v = w := by
  intro v
  constructor
  · rintro ⟨i, hi, hget⟩
    rw [List.length_set] at hi
    by_cases hir : i = r
    · subst hir
      rw [List.get?_set_eq_of_lt _ hr] at hget
      have := Option.some.inj hget
      exact (congrArg Entry.value this).symm
    · rw [List.get?_set_ne _ _ (fun hh => hir hh.symm)] at hget
      exact absurd (by rw [slotKey_of_get hget] : slotKey E i = some k) (habs i hi)
  · intro hv
    subst hv
    exact mapsToE_set_self k v hr

theorem keyAt_set_keyless (E : List Entry) (r k : Nat) (w : Value)
    (hr : r < E.length) (hrk : slotKey E r = none) :
    ∀ k2, keyAt (E.set r ⟨some k, w⟩) k2 ↔ (k2 = k ∨ keyAt E k2) := by
  intro k2
  constructor
  · rintro ⟨i, hi, hget⟩
    rw [List.length_set] at hi
    by_cases hir : i = r
    · subst hir
      rw [slotKey_set_self E i _ hr] at hget
      exact Or.inl (Option.some.inj hget).symm
    · rw [slotKey_set_ne E r _ hir] at hget
      exact Or.inr ⟨i, hi, hget⟩
  · rintro (hk | ⟨i, hi, hget⟩)
    · subst hk
      exact ⟨r, by simpa using hr, by rw [slotKey_set_self E r _ hr]⟩
    · have hir : i ≠ r := by
        intro hh
        rw [hh, hrk] at hget
        exact Option.noConfusion hget
      exact ⟨i, by simpa using hi, by rw [slotKey_set_ne E r _ hir]; exact hget⟩

/-- Invariant-carrying run of the `adjust_capacity` re-insertion loop:
inserting the distinct keys of `old` (all absent from the accumulator) into
a well-placed, tombstone-free accumulator with room succeeds and produces
exactly the union of the bindings. -/
theorem adjust_insert_spec (hash : Nat → Nat) (capacity : Nat) :
    ∀ (old accE : List Entry) (accLen : Nat),
    accE.length = capacity →
    (∀ i < accE.length, PlacedAt hash accE i) →
    KeysDistinct accE →
    NoTombstones accE →
    accLen = fillCount accE →
    fillCount accE + keyCount old < capacity →
    (∀ k, keyAt old k → ¬ keyAt accE k) →
    KeysDistinct old →
    ∃ accE2 accLen2,
      adjust_insert hash capacity old (accE, accLen) = some (accE2, accLen2) ∧
      accE2.length = capacity ∧
      (∀ i < accE2.length, PlacedAt hash accE2 i) ∧
      KeysDistinct accE2 ∧
      NoTombstones accE2 ∧
      accLen2 = fillCount accE2 ∧
      fillCount accE2 = fillCount accE + keyCount old ∧
      (∀ k v, mapsToE accE2 k v ↔ (mapsToE accE k v ∨ mapsToE old k v)) ∧
      (∀ k, keyAt accE2 k ↔ (keyAt accE k ∨ keyAt old k)) := by
  intro old
  induction old with
  | nil =>
    intro accE accLen hlenE hplace hdis htomb hacc hroomK hdisj _hdisO
    refine ⟨accE, accLen, rfl, hlenE, hplace, hdis, htomb, hacc, ?_, ?_, ?_⟩
    · unfold keyCount
      simp
    · intro k v
      simp [mapsToE]
    · intro k
      simp [keyAt]
  | cons e rest ih =>
    intro accE accLen hlenE hplace hdis htomb hacc hroomK hdisj hdisO
    cases hek : e.key with
    | none =>
      have hkc : keyCount (e :: rest) = keyCount rest := by
        rw [keyCount_cons, hek]
        simp
      rw [hkc] at hroomK
      obtain ⟨accE2, accLen2, hrun, h1, h2, h3, h4, h5, h6, h7, h8⟩ :=
        ih accE accLen hlenE hplace hdis htomb hacc hroomK
          (fun k hk => hdisj k ((keyAt_cons e rest k).mpr (Or.inr hk)))
          (KeysDistinct_tail hdisO)
      refine ⟨accE2, accLen2, ?_, h1, h2, h3, h4, h5,
        by rw [hkc]; exact h6, ?_, ?_⟩
      · unfold adjust_insert
        simp only [hek]
        exact hrun
      · intro k v
        rw [h7 k v, mapsToE_cons]
        constructor
        · rintro (h | h)
          · exact Or.inl h
          · exact Or.inr (Or.inr h)
        · rintro (h | h | h)
          · exact Or.inl h
          · rw [h] at hek
            simp at hek
          · exact Or.inr h
      · intro k
        rw [h8 k, keyAt_cons]
        constructor
        · rintro (h | h)
          · exact Or.inl h
          · exact Or.inr (Or.inr h)
        · rintro (h | h | h)
          · exact Or.inl h
          · rw [hek] at h
            exact Option.noConfusion h
          · exact Or.inr h
    | some k =>
      have hkAt : keyAt (e :: rest) k := (keyAt_cons e rest k).mpr (Or.inl hek)
      have hkabs : ¬ keyAt accE k := hdisj k hkAt
      have habs : ∀ i < accE.length, slotKey accE i ≠ some k := by
        intro i hi hcontra
        exact hkabs ⟨i, hi, hcontra⟩
      have hkc : keyCount (e :: rest) = 1 + keyCount rest := by
        rw [keyCount_cons, hek]
        rfl
      have hficap : fillCount accE < capacity := by
        rw [hkc] at hroomK
        omega
      have hany : accE.any isEmptySlot = true := by
        apply any_empty_of_fillCount_lt
        omega
      obtain ⟨r, hfe, ⟨e0, her, he0k⟩, hOnP⟩ :=
        find_entry_absent accE (hash k) k hany habs
      have hrlt : r < accE.length := (List.get?_eq_some.mp her).choose
      have he0v : e0.value = Value.nil := htomb r hrlt e0 (by rw [her]; simp) he0k
      have he0emp : isEmptySlot e0 = true := (isEmptySlot_iff e0).mpr ⟨he0k, he0v⟩
      have hrk : slotKey accE r = none := by rw [slotKey_of_get her, he0k]
      have hNa : isEmptySlot (⟨some k, e.value⟩ : Entry) = false := rfl
      have hfc := fillCount_set_of_empty accE r ⟨some k, e.value⟩ e0 her he0emp hNa
      have hmaster := set_slot_master hash accE r ⟨some k, e.value⟩ rfl hrlt hplace
        (fun k2 hk2 => by
          have hkk : k = k2 := by simpa using hk2
          subst hkk
          exact hOnP)
        (fun k2 hk2 => by
          have hkk : k = k2 := by simpa using hk2
          subst hkk
          exact Or.inr habs)
        hdis
      have hlen2 : (accE.set r ⟨some k, e.value⟩).length = capacity := by
        simpa using hlenE
      have hdisj2 : ∀ k2, keyAt rest k2 →
          ¬ keyAt (accE.set r ⟨some k, e.value⟩) k2 := by
        intro k2 hk2 hcontra
        rcases (keyAt_set_keyless accE r k e.value hrlt hrk k2).mp hcontra with hkk | hold
        · subst hkk
          obtain ⟨i0, hi0, hsk0⟩ := hk2
          rcases hdisO 0 (by simp) (i0 + 1) (by simpa using hi0) (by omega) with hc | hc
          · rw [show slotKey (e :: rest) 0 = e.key from rfl, hek] at hc
            exact Option.noConfusion hc
          · rw [show slotKey (e :: rest) 0 = e.key from rfl, hek,
              show slotKey (e :: rest) (i0 + 1) = slotKey rest i0 from rfl, hsk0] at hc
            exact hc rfl
        · exact hdisj k2 ((keyAt_cons e rest k2).mpr (Or.inr hk2)) hold
      obtain ⟨accE2, accLen2, hrun, h1, h2, h3, h4, h5, h6, h7, h8⟩ :=
        ih (accE.set r ⟨some k, e.value⟩) (accLen + 1) hlen2 hmaster.2 hmaster.1
          (noTomb_set_key accE r k e.value htomb)
          (by rw [hfc]; omega)
          (by rw [hfc]; rw [hkc] at hroomK; omega)
          hdisj2
          (KeysDistinct_tail hdisO)
      have hfe2 : find_entry accE capacity (hash k) k = some r := by
        rw [← hlenE]
        exact hfe
      refine ⟨accE2, accLen2, ?_, h1, h2, h3, h4, h5, ?_, ?_, ?_⟩
      · unfold adjust_insert
        simp only [hek, hfe2]
        exact hrun
      · rw [h6, hfc, hkc]
        omega
      · intro k2 v
        rw [h7 k2 v, mapsToE_cons]
        by_cases hk2 : k2 = k
        · subst hk2
          rw [mapsToE_set_fresh accE r k2 e.value hrlt habs v]
          constructor
          · rintro (h | h)
            · refine Or.inr (Or.inl ?_)
              cases e
              simp at hek ⊢
              exact ⟨hek, h.symm⟩
            · exact Or.inr (Or.inr h)
          · rintro (h | h | h)
            · obtain ⟨i, hi, hget⟩ := h
              exact absurd ⟨i, hi, by rw [slotKey_of_get hget]⟩ hkabs
            · left
              rw [h]
            · exact Or.inr h
        · rw [mapsToE_set_iff k2 v hrlt
            (fun hh => hk2 (Option.some.inj hh).symm) (by rw [hrk]; simp)]
          constructor
          · rintro (h | h)
            · exact Or.inl h
            · exact Or.inr (Or.inr h)
          · rintro (h | h | h)
            · exact Or.inl h
            · rw [h] at hek
              simp at hek
              exact absurd hek hk2
            · exact Or.inr h
      · intro k2
        rw [h8 k2, keyAt_set_keyless accE r k e.value hrlt hrk k2, keyAt_cons]
        rw [hek]
        constructor
        · rintro ((hkk | hold) | hrest)
          · exact Or.inr (Or.inl (by rw [hkk]))
          · exact Or.inl hold
          · exact Or.inr (Or.inr hrest)
        · rintro (hold | hsk | hrest)
          · exact Or.inl (Or.inr hold)
          · exact Or.inl (Or.inl (Option.some.inj hsk).symm)
          · exact Or.inr hrest

theorem fillCount_lt_length_of_any {E : List Entry}
    (h : E.any isEmptySlot = true) : fillCount E < E.length := by
  obtain ⟨x, hx, hpx⟩ := List.any_eq_true.mp h
  unfold fillCount
  exact List.length_filter_lt_length_iff_exists.mpr ⟨x, hx, by simp [hpx]⟩

theorem keyCount_le_fillCount (E : List Entry) : keyCount E ≤ fillCount E := by
  unfold keyCount fillCount
  have hx : ∀ e : Entry, e.key.isSome = true → (!isEmptySlot e) = true := by
    intro e h
    unfold isEmptySlot
    cases hk : e.key with
    | none => rw [hk] at h; simp at h
    | some k => simp [hk]
  exact (List.monotone_filter_right E hx).length_le

/-- Rebuild of `adjust_capacity` on a well-formed table into a strictly
larger capacity: it succeeds with a tombstone-free, well-formed table whose
`len` counts the keys and whose bindings are exactly the old ones. -/
theorem adjust_capacity_spec (hash : Nat → Nat) (t : Table) (capacity : Nat)
    (hWF : TableWF hash t) (hroomK : keyCount t.entries < capacity) :
    ∃ t0, adjust_capacity hash t capacity = some t0 ∧
      t0.cap = capacity ∧ TableWF hash t0 ∧
      t0.len = keyCount t.entries ∧
      (∀ k v, mapsTo t0 k v ↔ mapsTo t k v) ∧
      (∀ k, keyAt t0.entries k ↔ keyAt t.entries k) := by
  obtain ⟨hlen, hemp, hdis, hplace⟩ := hWF
  have hcappos : 0 < capacity := by omega
  have hfresh : ∀ i < capacity,
      (List.replicate capacity (⟨none, Value.nil⟩ : Entry)).get? i =
        some ⟨none, Value.nil⟩ := by
    intro i hi
    rw [List.get?_eq_getElem?]
    simp [hi]
  have hfreshKey : ∀ i < capacity,
      slotKey (List.replicate capacity (⟨none, Value.nil⟩ : Entry)) i = none := by
    intro i hi
    rw [slotKey_of_get (hfresh i hi)]
  have hfillfresh : fillCount (List.replicate capacity (⟨none, Value.nil⟩ : Entry)) = 0 := by
    unfold fillCount
    have : ∀ e ∈ List.replicate capacity (⟨none, Value.nil⟩ : Entry),
        ¬ (!isEmptySlot e) = true := by
      intro e he
      rw [List.eq_of_mem_replicate he]
      simp [isEmptySlot]
    rw [List.filter_eq_nil.mpr this]
    rfl
  obtain ⟨accE2, accLen2, hrun, h1, h2, h3, h4, h5, h6, h7, h8⟩ :=
    adjust_insert_spec hash capacity t.entries
      (List.replicate capacity ⟨none, Value.nil⟩) 0
      (by simp)
      (by
        intro i hi
        unfold PlacedAt
        rw [List.length_replicate] at hi
        rw [hfreshKey i hi]
        simp)
      (by
        intro i hi j hj hij
        rw [List.length_replicate] at hi
        exact Or.inl (hfreshKey i hi))
      (by
        intro i hi e he hke
        rw [List.length_replicate] at hi
        rw [hfresh i hi] at he
        simp at he
        rw [he])
      (by rw [hfillfresh])
      (by rw [hfillfresh]; omega)
      (by
        intro k _ hcontra
        obtain ⟨i, hi, hsk⟩ := hcontra
        rw [List.length_replicate] at hi
        rw [hfreshKey i hi] at hsk
        exact Option.noConfusion hsk)
      hdis
  rw [hfillfresh] at h6
  refine ⟨⟨accLen2, accE2⟩, ?_, h1, ⟨h5, ?_, h3, h2⟩,
    (by show accLen2 = keyCount t.entries; omega), ?_, ?_⟩
  · unfold adjust_capacity
    rw [hrun]
    rfl
  · right
    apply any_empty_of_fillCount_lt
    rw [h1, h6]
    omega
  · intro k v
    show mapsToE accE2 k v ↔ mapsToE t.entries k v
    rw [h7 k v]
    constructor
    · rintro (h | h)
      · obtain ⟨i, hi, hget⟩ := h
        rw [List.length_replicate] at hi
        rw [hfresh i hi] at hget
        simp at hget
      · exact h
    · exact Or.inr
  · intro k
    show keyAt accE2 k ↔ keyAt t.entries k
    rw [h8 k]
    constructor
    · rintro (h | h)
      · obtain ⟨i, hi, hget⟩ := h
        rw [List.length_replicate] at hi
        rw [hfreshKey i hi] at hget
        exact Option.noConfusion hget
      · exact h
    · exact Or.inr

/-- Full `table_set` on a well-formed table: it succeeds (growing first if
the load factor demands it), preserves well-formedness, reports
`is_new_key` exactly when the key was absent, stores the binding and leaves
every other binding untouched. -/
theorem table_set_spec (hash : Nat → Nat) (t : Table) (kid : Nat) (v : Value)
    (hWF : TableWF hash t) :
    ∃ t1 isNew, table_set hash t kid v = some (t1, isNew) ∧
      TableWF hash t1 ∧
      (isNew = true ↔ ¬ keyAt t.entries kid) ∧
      mapsTo t1 kid v ∧
      (∀ k, k ≠ kid → ∀ w, (mapsToE t1.entries k w ↔ mapsToE t.entries k w)) := by
  have hfill : t.len = fillCount t.entries := hWF.1
  have hfle : fillCount t.entries ≤ t.entries.length := List.length_filter_le _ _
  unfold table_set
  by_cases hload : 4 * (t.len + 1) > 3 * t.cap
  · -- grow first, then probe
    rw [if_pos hload]
    have hcapE : t.cap = t.entries.length := rfl
    have hemp2 : fillCount t.entries < t.entries.length ∨ t.entries = [] := by
      rcases hWF.2.1 with h0 | h1
      · exact Or.inr h0
      · exact Or.inl (fillCount_lt_length_of_any h1)
    have hkc := keyCount_le_fillCount t.entries
    have hgrow : keyCount t.entries < grow_capacity t.cap ∧
        keyCount t.entries + 1 < grow_capacity t.cap := by
      unfold grow_capacity
      rcases hemp2 with hlt | hnil
      · by_cases hc8 : t.cap < 8
        · rw [if_pos hc8]
          rw [hcapE] at hc8
          omega
        · rw [if_neg hc8]
          rw [hcapE] at hc8 ⊢
          omega
      · have : t.entries.length = 0 := by rw [hnil]; rfl
        have hk0 : keyCount t.entries = 0 := by omega
        by_cases hc8 : t.cap < 8
        · rw [if_pos hc8]; omega
        · rw [if_neg hc8]
          rw [hcapE] at hc8
          omega
    obtain ⟨t0, hadj, hcap0, hWF0, hlen0, hmap0, hkey0⟩ :=
      adjust_capacity_spec hash t (grow_capacity t.cap) hWF hgrow.1
    rw [hadj]
    simp only [Option.some_bind]
    obtain ⟨t1, isNew, hprobe, hWF1, _hcap1, hnew1, hmaps1, hoth1, _hlen1⟩ :=
      table_set_probe_spec hash t0 kid v hWF0 (by rw [hlen0, hcap0]; exact hgrow.2)
    refine ⟨t1, isNew, hprobe, hWF1, ?_, hmaps1, ?_⟩
    · rw [hnew1]
      constructor
      · intro h hc
        exact h ((hkey0 kid).mpr hc)
      · intro h hc
        exact h ((hkey0 kid).mp hc)
    · intro k hk w
      rw [hoth1 k hk w]
      exact hmap0 k w
  · -- no resize needed
    rw [if_neg hload]
    simp only [Option.some_bind]
    have hcapE : t.cap = t.entries.length := rfl
    have hcappos : 0 < t.cap := by
      rw [hcapE]
      omega
    obtain ⟨t1, isNew, hprobe, hWF1, _hcap1, hnew1, hmaps1, hoth1, _hlen1⟩ :=
      table_set_probe_spec hash t kid v hWF (by omega)
    exact ⟨t1, isNew, hprobe, hWF1, hnew1, hmaps1, hoth1⟩

theorem mapsToE_keyAt {E : List Entry} {k : Nat} {w : Value}
    (h : mapsToE E k w) : keyAt E k := by
  obtain ⟨i, hi, hget⟩ := h
  exact ⟨i, hi, by rw [slotKey_of_get hget]⟩

theorem keyAt_unique {E : List Entry} (hdis : KeysDistinct E) {i j k : Nat}
    (hi : i < E.length) (hj : j < E.length)
    (hski : slotKey E i = some k) (hskj : slotKey E j = some k) : i = j := by
  by_contra hne
  rcases hdis i hi j hj hne with h1 | h2
  · rw [hski] at h1
    exact Option.noConfusion h1
  · rw [hski, hskj] at h2
    exact h2 rfl

/-- `table_delete` on a well-formed table holding the key: it tombstones
the key's slot, keeps `len` and capacity, preserves well-formedness,
removes the key and leaves every other binding untouched. -/
theorem table_delete_spec (hash : Nat → Nat) (t : Table) (kid : Nat)
    (hWF : TableWF hash t) (hkey : keyAt t.entries kid) :
    ∃ t2, table_delete hash t kid = some (t2, true) ∧
      TableWF hash t2 ∧ t2.cap = t.cap ∧ t2.len = t.len ∧
      ¬ keyAt t2.entries kid ∧
      (∀ w, ¬ mapsToE t2.entries kid w) ∧
      (∀ k, k ≠ kid → ∀ w, (mapsToE t2.entries k w ↔ mapsToE t.entries k w)) := by
  obtain ⟨hlen, hemp, hdis, hplace⟩ := hWF
  have hcapE : t.cap = t.entries.length := rfl
  obtain ⟨j, hj, hskj⟩ := hkey
  obtain ⟨e, hej, hek⟩ := slotKey_some_elim hskj
  have hej2 := getElem?_of_get? hej
  have heNE : isEmptySlot e = false := by
    unfold isEmptySlot
    rw [hek]
    rfl
  have hTa : isEmptySlot (⟨none, Value.bool true⟩ : Entry) = false := rfl
  have hpos : 0 < fillCount t.entries := fillCount_pos hej heNE
  have hlen0 : ¬ (t.len = 0) := by omega
  have hfe := find_entry_present t.entries hash kid j hskj hj hplace hdis
  have hfc := fillCount_set_of_filled t.entries j ⟨none, Value.bool true⟩ e hej heNE hTa
  have hmaster := set_slot_master hash t.entries j ⟨none, Value.bool true⟩ hTa hj hplace
    (fun k hk => Option.noConfusion hk)
    (fun k hk => Option.noConfusion hk)
    hdis
  have hWF2 : TableWF hash ⟨t.len, t.entries.set j ⟨none, Value.bool true⟩⟩ := by
    refine ⟨?_, ?_, hmaster.1, ?_⟩
    · show t.len = fillCount (t.entries.set j ⟨none, Value.bool true⟩)
      rw [hfc]
      exact hlen
    · right
      show (t.entries.set j ⟨none, Value.bool true⟩).any isEmptySlot = true
      apply any_empty_of_fillCount_lt
      rw [hfc]
      simp only [List.length_set]
      refine fillCount_lt_length_of_any ?_
      rcases hemp with h0 | h1
      · rw [h0] at hj
        simp at hj
      · exact h1
    · show ∀ i < (t.entries.set j ⟨none, Value.bool true⟩).length,
        PlacedAt hash (t.entries.set j ⟨none, Value.bool true⟩) i
      exact hmaster.2
  have hnokey : ¬ keyAt (t.entries.set j ⟨none, Value.bool true⟩) kid := by
    rintro ⟨i, hi, hski⟩
    rw [List.length_set] at hi
    by_cases hij : i = j
    · subst hij
      rw [slotKey_set_self t.entries i ⟨none, Value.bool true⟩ hj] at hski
      exact Option.noConfusion hski
    · rw [slotKey_set_ne t.entries j ⟨none, Value.bool true⟩ hij] at hski
      exact hij (keyAt_unique hdis hi hj hski hskj)
  refine ⟨⟨t.len, t.entries.set j ⟨none, Value.bool true⟩⟩, ?_, hWF2, ?_, rfl,
    hnokey, ?_, ?_⟩
  · unfold table_delete
    rw [if_neg hlen0, hcapE, hfe]
    simp [hej2, hek]
  · show (t.entries.set j ⟨none, Value.bool true⟩).length = t.entries.length
    simp
  · intro w hmaps
    exact hnokey (mapsToE_keyAt hmaps)
  · intro k hk w
    exact mapsToE_set_iff k w hj (by simp)
      (by rw [hskj]; intro hc; exact hk (Option.some.inj hc).symm)

theorem cellLoc_some_elim {cells : List UpvalueCell} {u loc : Nat}
    (h : cellLoc cells u = some loc) :
    ∃ c, cells.get? u = some c ∧ c.location = some loc := by
  unfold cellLoc at h
  cases hq : cells.get? u with
  | none => rw [hq] at h; exact Option.noConfusion h
  | some c => rw [hq] at h; exact ⟨c, rfl, h⟩

theorem cellLoc_set_ne (cells : List UpvalueCell) (u : Nat) (c : UpvalueCell)
    {u2 : Nat} (h : u2 ≠ u) :
    cellLoc (cells.set u c) u2 = cellLoc cells u2 := by
  unfold cellLoc
  rw [List.get?_set_ne _ _ (fun hh => h hh.symm)]

theorem locD_set_ne (cells : List UpvalueCell) (u : Nat) (c : UpvalueCell)
    {u2 : Nat} (h : u2 ≠ u) :
    locD (cells.set u c) u2 = locD cells u2 := by
  unfold locD
  rw [cellLoc_set_ne cells u c h]

/-- The `close_upvalues` loop on a list whose cells are open, in-stack and
strictly decreasing: it closes exactly the leading run with location ≥
`last` (copying the stack slot into `closed` and dropping the cell's
location), leaves every other cell untouched and returns the strictly
smaller tail. -/
theorem close_go_spec (stack : List Value) (last : Nat) :
    ∀ (ups : List Nat) (cells : List UpvalueCell),
    (∀ u ∈ ups, (cellLoc cells u).isSome = true ∧ locD cells u < stack.length) →
    ((ups.map (locD cells)).Pairwise fun a b => b < a) →
    ∃ cells2 done kept,
      close_go stack cells last ups = some (cells2, kept) ∧
      ups = done ++ kept ∧
      (∀ u ∈ done, last ≤ locD cells u) ∧
      (∀ u ∈ kept, locD cells u < last) ∧
      cells2.length = cells.length ∧
      (∀ id2, id2 ∉ done → cells2.get? id2 = cells.get? id2) ∧
      (∀ u ∈ done, ∃ v, stack.get? (locD cells u) = some v ∧
        cells2.get? u = some ⟨none, v⟩) := by
  intro ups
  induction ups with
  | nil =>
    intro cells h1 h2
    exact ⟨cells, [], [], rfl, rfl, by simp, by simp, rfl,
      fun id2 _ => rfl, by simp⟩
  | cons u rest ih =>
    intro cells h1 h2
    obtain ⟨hsome, hblt⟩ := h1 u (by simp)
    obtain ⟨loc, hloc⟩ := Option.isSome_iff_exists.mp hsome
    have hlocD : locD cells u = loc := by
      unfold locD
      rw [hloc]
      rfl
    obtain ⟨c, hc, hcl⟩ := cellLoc_some_elim hloc
    have hulen : u < cells.length := List.get?_eq_some.mp hc |>.choose
    obtain ⟨hhead, htail⟩ :=
      List.pairwise_cons.mp (by rw [List.map_cons] at h2; exact h2)
    have hne : ∀ u2 ∈ rest, u2 ≠ u := by
      intro u2 hu2 hequ
      have hlt2 := hhead (locD cells u2) (List.mem_map_of_mem _ hu2)
      rw [hequ] at hlt2
      omega
    by_cases hge : loc ≥ last
    · have hblt2 : loc < stack.length := by rw [hlocD] at hblt; exact hblt
      obtain ⟨v, hv⟩ := get?_exists_of_lt stack loc hblt2
      have h1the : ∀ u2 ∈ rest,
          (cellLoc (cells.set u ⟨none, v⟩) u2).isSome = true ∧
          locD (cells.set u ⟨none, v⟩) u2 < stack.length := by
        intro u2 hu2
        rw [cellLoc_set_ne cells u ⟨none, v⟩ (hne u2 hu2),
          locD_set_ne cells u ⟨none, v⟩ (hne u2 hu2)]
        exact h1 u2 (by simp [hu2])
      have hmapeq : rest.map (locD (cells.set u ⟨none, v⟩)) =
          rest.map (locD cells) :=
        List.map_congr_left fun u2 hu2 => locD_set_ne cells u ⟨none, v⟩ (hne u2 hu2)
      have h2the : (rest.map (locD (cells.set u ⟨none, v⟩))).Pairwise
          fun a b => b < a := by
        rw [hmapeq]
        exact htail
      obtain ⟨cells2, done2, kept, hrun, hsplit, hdone, hkept, hlen2, hpres, hclosed⟩ :=
        ih (cells.set u ⟨none, v⟩) h1the h2the
      have heq2 : close_go stack cells last (u :: rest) =
          close_go stack (cells.set u ⟨none, v⟩) last rest := by
        simp only [close_go, hloc, hv]
        rw [if_pos hge]
      have hunotdone : u ∉ done2 := by
        intro hu
        have hur : u ∈ rest := by
          rw [hsplit]
          exact List.mem_append_left _ hu
        exact hne u hur rfl
      refine ⟨cells2, u :: done2, kept, by rw [heq2]; exact hrun,
        by rw [hsplit]; rfl, ?_, ?_, by rw [hlen2]; simp, ?_, ?_⟩
      · intro u2 hu2
        rcases List.mem_cons.mp hu2 with h | h
        · subst h
          rw [hlocD]
          exact hge
        · have hur : u2 ∈ rest := by
            rw [hsplit]
            exact List.mem_append_left _ h
          rw [← locD_set_ne cells u ⟨none, v⟩ (hne u2 hur)]
          exact hdone u2 h
      · intro u2 hu2
        have hur : u2 ∈ rest := by
          rw [hsplit]
          exact List.mem_append_right _ hu2
        rw [← locD_set_ne cells u ⟨none, v⟩ (hne u2 hur)]
        exact hkept u2 hu2
      · intro id2 hid
        have hidu : id2 ≠ u := fun h => hid (h ▸ List.mem_cons_self u done2)
        have hid2 : id2 ∉ done2 := fun h => hid (List.mem_cons_of_mem _ h)
        rw [hpres id2 hid2, List.get?_set_ne _ _ (fun h => hidu h.symm)]
      · intro u2 hu2
        rcases List.mem_cons.mp hu2 with h | h
        · subst h
          refine ⟨v, by rw [hlocD]; exact hv, ?_⟩
          rw [hpres u2 hunotdone, List.get?_set_eq_of_lt _ hulen]
        · obtain ⟨v2, hv2, hc2⟩ := hclosed u2 h
          have hur : u2 ∈ rest := by
            rw [hsplit]
            exact List.mem_append_left _ h
          refine ⟨v2, ?_, hc2⟩
          rw [← locD_set_ne cells u ⟨none, v⟩ (hne u2 hur)]
          exact hv2
    · have heq3 : close_go stack cells last (u :: rest) =
          some (cells, u :: rest) := by
        simp only [close_go, hloc]
        rw [if_neg hge]
      refine ⟨cells, [], u :: rest, heq3, rfl, by simp, ?_, rfl,
        fun id2 _ => rfl, by simp⟩
      intro u2 hu2
      rcases List.mem_cons.mp hu2 with h | h
      · subst h
        rw [hlocD]
        omega
      · have hlt2 : locD cells u2 < locD cells u :=
          hhead (locD cells u2) (List.mem_map_of_mem _ h)
        rw [hlocD] at hlt2
        omega

/-- The `capture_upvalue` walk on a strictly decreasing open list: it
reuses the cell already at `slot` when one exists (changing nothing), and
otherwise appends a fresh open cell and splices its id between the ids
with larger and smaller locations. -/
theorem capture_go_spec (slot : Nat) :
    ∀ (ups : List Nat) (cells : List UpvalueCell),
    (∀ u ∈ ups, (cellLoc cells u).isSome = true) →
    ((ups.map (locD cells)).Pairwise fun a b => b < a) →
    ∃ cells2 ups2 id2,
      capture_go cells slot ups = some (cells2, ups2, id2) ∧
      (slot ∈ ups.map (locD cells) →
        cells2 = cells ∧ ups2 = ups ∧ id2 ∈ ups ∧ locD cells id2 = slot) ∧
      (slot ∉ ups.map (locD cells) →
        cells2 = cells ++ [⟨some slot, Value.nil⟩] ∧ id2 = cells.length ∧
        ∃ pre post, ups = pre ++ post ∧ ups2 = pre ++ id2 :: post ∧
          (∀ u ∈ pre, slot < locD cells u) ∧
          (∀ u ∈ post, locD cells u < slot)) := by
  intro ups
  induction ups with
  | nil =>
    intro cells h1 h2
    refine ⟨cells ++ [(⟨some slot, Value.nil⟩ : UpvalueCell)], [cells.length],
      cells.length, by rfl, by simp, ?_⟩
    intro _
    exact ⟨rfl, rfl, [], [], rfl, rfl, by simp, by simp⟩
  | cons u rest ih =>
    intro cells h1 h2
    have hsome := h1 u (by simp)
    obtain ⟨loc, hloc⟩ := Option.isSome_iff_exists.mp hsome
    have hlocD : locD cells u = loc := by
      unfold locD
      rw [hloc]
      rfl
    obtain ⟨hhead, htail⟩ :=
      List.pairwise_cons.mp (by rw [List.map_cons] at h2; exact h2)
    by_cases hlt : slot < loc
    · obtain ⟨cells2, ups2, id2, hrun, hmem, hfresh⟩ :=
        ih cells (fun u2 hu2 => h1 u2 (by simp [hu2])) htail
      have heq : capture_go cells slot (u :: rest) =
          (capture_go cells slot rest).map
            (fun r : List UpvalueCell × List Nat × Nat =>
              (r.1, u :: r.2.1, r.2.2)) := by
        simp only [capture_go, hloc]
        rw [if_pos hlt]
      refine ⟨cells2, u :: ups2, id2, by rw [heq, hrun]; rfl, ?_, ?_⟩
      · intro hin
        have hin2 : slot ∈ rest.map (locD cells) := by
          rcases List.mem_cons.mp (by rw [List.map_cons] at hin; exact hin)
            with h | h
          · rw [hlocD] at h
            omega
          · exact h
        obtain ⟨hce, hue, hidm, hidl⟩ := hmem hin2
        exact ⟨hce, by rw [hue], List.mem_cons_of_mem _ hidm, hidl⟩
      · intro hnin
        have hnin2 : slot ∉ rest.map (locD cells) := by
          intro h
          exact hnin (by rw [List.map_cons]; exact List.mem_cons_of_mem _ h)
        obtain ⟨hce, hid, pre, post, hsplit, hups2, hpre, hpost⟩ := hfresh hnin2
        refine ⟨hce, hid, u :: pre, post, by rw [hsplit]; rfl,
          by rw [hups2]; rfl, ?_, hpost⟩
        intro u2 hu2
        rcases List.mem_cons.mp hu2 with h | h
        · subst h
          rw [hlocD]
          exact hlt
        · exact hpre u2 h
    · by_cases heqs : loc = slot
      · have heq : capture_go cells slot (u :: rest) =
            some (cells, u :: rest, u) := by
          simp only [capture_go, hloc]
          rw [if_neg hlt, if_pos heqs]
        refine ⟨cells, u :: rest, u, heq, ?_, ?_⟩
        · intro _
          exact ⟨rfl, rfl, by simp, by rw [hlocD]; exact heqs⟩
        · intro hnin
          exact absurd (by
            rw [List.map_cons]
            exact List.mem_cons.mpr (Or.inl (hlocD.trans heqs).symm)) hnin
      · have hgt : loc < slot := by omega
        have heq : capture_go cells slot (u :: rest) =
            some (cells ++ [⟨some slot, Value.nil⟩],
              cells.length :: u :: rest, cells.length) := by
          simp only [capture_go, hloc]
          rw [if_neg hlt, if_neg heqs]
        refine ⟨cells ++ [⟨some slot, Value.nil⟩], cells.length :: u :: rest,
          cells.length, heq, ?_, ?_⟩
        · intro hin
          exfalso
          rcases List.mem_cons.mp (by rw [List.map_cons] at hin; exact hin)
            with h | h
          · rw [hlocD] at h
            omega
          · have hlt2 := hhead slot h
            rw [hlocD] at hlt2
            omega
        · intro _
          refine ⟨rfl, rfl, [], u :: rest, rfl, rfl, by simp, ?_⟩
          intro u2 hu2
          rcases List.mem_cons.mp hu2 with h | h
          · subst h
            rw [hlocD]
            exact hgt
          · have hlt2 := hhead (locD cells u2) (List.mem_map_of_mem _ h)
            rw [hlocD] at hlt2
            omega

theorem mem_tableKeys_of_slotKey {E : List Entry} {i k : Nat}
    (h : slotKey E i = some k) : k ∈ tableKeys E := by
  obtain ⟨e, he, hek⟩ := slotKey_some_elim h
  exact List.mem_filterMap.mpr ⟨e, List.get?_mem he, hek⟩

theorem mem_tableKeys_iff (E : List Entry) (k : Nat) :
    k ∈ tableKeys E ↔ keyAt E k := by
  constructor
  · intro h
    obtain ⟨e, he, hek⟩ := List.mem_filterMap.mp h
    obtain ⟨i, hi⟩ := List.get?_of_mem he
    have hlt : i < E.length := List.get?_eq_some.mp hi |>.choose
    exact ⟨i, hlt, by rw [slotKey_of_get hi, hek]⟩
  · rintro ⟨i, hi, hsk⟩
    exact mem_tableKeys_of_slotKey hsk

theorem keyAt_exists_mapsToE {E : List Entry} {k : Nat} (h : keyAt E k) :
    ∃ v, mapsToE E k v := by
  obtain ⟨i, hi, hsk⟩ := h
  obtain ⟨e, he, hek⟩ := slotKey_some_elim hsk
  refine ⟨e.value, i, hi, ?_⟩
  rw [he]
  cases e with
  | mk ek ev =>
    simp only at hek
    rw [hek]

/-- Well-formedness only consults the hash on the stored keys. -/
theorem TableWF_congr {hash1 hash2 : Nat → Nat} {t : Table}
    (hWF : TableWF hash1 t)
    (h : ∀ k, keyAt t.entries k → hash2 k = hash1 k) : TableWF hash2 t := by
  obtain ⟨hlen, hemp, hdis, hplace⟩ := hWF
  refine ⟨hlen, hemp, hdis, ?_⟩
  intro i hi
  unfold PlacedAt
  intro k hk
  have hsk : slotKey t.entries i = some k := by
    cases hq : slotKey t.entries i with
    | none => rw [hq] at hk; simp at hk
    | some k2 =>
      rw [hq] at hk
      simp at hk
      rw [hk]
  rw [h k ⟨i, hi, hsk⟩]
  have hp := hplace i hi
  unfold PlacedAt at hp
  rw [hsk] at hp
  exact hp k (by simp)

/-- Walk of `table_find_string` when a stored string has the sought
bytes: the walk stops at that string's slot and returns it. -/
theorem table_find_string_go_present (store : Nat → List Char)
    (hashf : Nat → Nat) (E : List Entry) (chars : List Char) (k j dj : Nat)
    (hdj : dj < E.length)
    (hpj : probeIdx (hash_string chars) E.length dj = j)
    (hpath : ∀ d2 < dj,
      slotFilled E (probeIdx (hash_string chars) E.length d2) = true)
    (hkey : slotKey E j = some k)
    (hstore : store k = chars)
    (hhk : hashf k = hash_string chars)
    (huniq : ∀ k2 ∈ tableKeys E, store k2 = chars → k2 = k)
    (hdis : KeysDistinct E) :
    ∀ fuel d, d ≤ dj → dj - d < fuel →
      table_find_string_go store hashf E E.length chars (hash_string chars)
        fuel d = some (some k) := by
  intro fuel
  induction fuel with
  | zero => omega
  | succ f ih =>
    intro d hd hf
    have hn : 0 < E.length := by omega
    have hjlt : j < E.length := hpj ▸ probeIdx_lt (hash_string chars) E.length dj hn
    have hi : (hash_string chars + d) % E.length < E.length := Nat.mod_lt _ hn
    obtain ⟨e, he⟩ := get?_exists_of_lt E _ hi
    unfold table_find_string_go
    simp only [he]
    by_cases hdd : d = dj
    · subst hdd
      have hij : (hash_string chars + d) % E.length = j := hpj
      rw [hij] at he
      have hek : e.key = some k := by
        have hsk := slotKey_of_get he
        rw [hkey] at hsk
        exact hsk.symm
      simp only [hek]
      rw [if_pos ⟨by rw [hstore], hhk, hstore⟩]
    · have hdlt : d < dj := by omega
      have hfill := hpath d hdlt
      unfold probeIdx at hfill
      rw [slotFilled_of_get he] at hfill
      have hne : isEmptySlot e = false := by
        cases hemp : isEmptySlot e
        · rfl
        · rw [hemp] at hfill; simp at hfill
      cases hek : e.key with
      | some k2 =>
        have hik : slotKey E ((hash_string chars + d) % E.length) = some k2 := by
          rw [slotKey_of_get he, hek]
        have hncond : ¬ ((store k2).length = chars.length ∧
            hashf k2 = hash_string chars ∧ store k2 = chars) := by
          rintro ⟨_, _, hsc⟩
          have hkk := huniq k2 (mem_tableKeys_of_slotKey hik) hsc
          subst hkk
          have hij : (hash_string chars + d) % E.length ≠ j := by
            intro hcontra
            have hpd : probeIdx (hash_string chars) E.length d =
                probeIdx (hash_string chars) E.length dj := by
              unfold probeIdx
              rw [hcontra]
              exact hpj.symm
            have hde : d = dj :=
              probeIdx_inj (hash_string chars) (show d < E.length by omega) hdj hpd
            omega
          rcases hdis _ hi _ hjlt hij with hnone | hneq
          · rw [hik] at hnone
            exact Option.noConfusion hnone
          · rw [hik, hkey] at hneq
            exact hneq rfl
        simp only [hek, if_neg hncond]
        exact ih (d + 1) (by omega) (by omega)
      | none =>
        have hv : ¬ e.value = Value.nil := by
          intro hvv
          rw [(isEmptySlot_iff e).mpr ⟨hek, hvv⟩] at hne
          exact Bool.noConfusion hne
        simp only [hek, if_neg hv]
        exact ih (d + 1) (by omega) (by omega)

/-- Walk of `table_find_string` when no stored string has the sought
bytes: the walk stops at the first truly empty slot and reports a miss. -/
theorem table_find_string_go_absent (store : Nat → List Char)
    (hashf : Nat → Nat) (E : List Entry) (chars : List Char) (h0 D : Nat)
    (hD : D < E.length)
    (hDe : slotFilled E (probeIdx h0 E.length D) = false)
    (hDl : ∀ d2 < D, slotFilled E (probeIdx h0 E.length d2) = true)
    (habs : ∀ k2 ∈ tableKeys E, store k2 ≠ chars) :
    ∀ fuel d, d ≤ D → D - d < fuel →
      table_find_string_go store hashf E E.length chars h0 fuel d =
        some none := by
  intro fuel
  induction fuel with
  | zero => omega
  | succ f ih =>
    intro d hd hf
    have hn : 0 < E.length := by omega
    have hi : (h0 + d) % E.length < E.length := Nat.mod_lt _ hn
    obtain ⟨e, he⟩ := get?_exists_of_lt E _ hi
    unfold table_find_string_go
    simp only [he]
    by_cases hdd : d = D
    · subst hdd
      have hfe := hDe
      unfold probeIdx at hfe
      rw [slotFilled_of_get he] at hfe
      have hemp : isEmptySlot e = true := by
        cases hx : isEmptySlot e
        · rw [hx] at hfe; simp at hfe
        · rfl
      obtain ⟨hek, hev⟩ := (isEmptySlot_iff e).mp hemp
      simp [hek, hev]
    · have hdlt : d < D := by omega
      have hfill := hDl d hdlt
      unfold probeIdx at hfill
      rw [slotFilled_of_get he] at hfill
      have hne : isEmptySlot e = false := by
        cases hemp : isEmptySlot e
        · rfl
        · rw [hemp] at hfill; simp at hfill
      cases hek : e.key with
      | some k2 =>
        have hik : slotKey E ((h0 + d) % E.length) = some k2 := by
          rw [slotKey_of_get he, hek]
        have hncond : ¬ ((store k2).length = chars.length ∧
            hashf k2 = h0 ∧ store k2 = chars) := by
          rintro ⟨_, _, hsc⟩
          exact habs k2 (mem_tableKeys_of_slotKey hik) hsc
        simp only [hek, if_neg hncond]
        exact ih (d + 1) (by omega) (by omega)
      | none =>
        have hv : ¬ e.value = Value.nil := by
          intro hvv
          rw [(isEmptySlot_iff e).mpr ⟨hek, hvv⟩] at hne
          exact Bool.noConfusion hne
        simp only [hek, if_neg hv]
        exact ih (d + 1) (by omega) (by omega)

/-- `table_find_string` on a well-formed interner table holding a string
with the sought bytes returns exactly that string. -/
theorem table_find_string_present (store : Nat → List Char)
    (hashf : Nat → Nat) (t : Table) (chars : List Char) (k : Nat)
    (hWF : TableWF hashf t)
    (hkey : keyAt t.entries k)
    (hstore : store k = chars)
    (hhk : hashf k = hash_string chars)
    (huniq : ∀ k2 ∈ tableKeys t.entries, store k2 = chars → k2 = k) :
    table_find_string store hashf t chars (hash_string chars) =
      some (some k) := by
  obtain ⟨hlen, hemp, hdis, hplace⟩ := hWF
  have hcapE : t.cap = t.entries.length := rfl
  obtain ⟨j, hj, hskj⟩ := hkey
  obtain ⟨e, hej, hek⟩ := slotKey_some_elim hskj
  have heNE : isEmptySlot e = false := by
    unfold isEmptySlot
    rw [hek]
    rfl
  have hpos : 0 < fillCount t.entries := fillCount_pos hej heNE
  have hlen0 : ¬ (t.len = 0) := by omega
  have hp := hplace j hj
  unfold PlacedAt at hp
  rw [hskj] at hp
  have hop : OnPath (hashf k) t.entries j := hp k (by simp)
  rw [hhk] at hop
  obtain ⟨dj, hdj, hpj, hpath⟩ := hop
  unfold table_find_string
  rw [if_neg hlen0, hcapE]
  exact table_find_string_go_present store hashf t.entries chars k j dj hdj hpj
    hpath hskj hstore hhk huniq hdis t.entries.length 0 (by omega) (by omega)

/-- `table_find_string` on a well-formed interner table holding no string
with the sought bytes reports a miss. -/
theorem table_find_string_absent (store : Nat → List Char)
    (hashf : Nat → Nat) (t : Table) (chars : List Char) (h0 : Nat)
    (hWF : TableWF hashf t)
    (habs : ∀ k2 ∈ tableKeys t.entries, store k2 ≠ chars) :
    table_find_string store hashf t chars h0 = some none := by
  obtain ⟨hlen, hemp, hdis, hplace⟩ := hWF
  have hcapE : t.cap = t.entries.length := rfl
  by_cases hlen0 : t.len = 0
  · unfold table_find_string
    rw [if_pos hlen0]
  · have hne : ¬ (t.entries = []) := by
      intro hnil
      rw [hlen, hnil] at hlen0
      exact hlen0 rfl
    have hany : t.entries.any isEmptySlot = true := by
      rcases hemp with h1 | h1
      · exact absurd h1 hne
      · exact h1
    obtain ⟨i0, hi0, e0, he0, hemp0⟩ := any_empty hany
    have hn : 0 < t.entries.length := by omega
    obtain ⟨d0, hd0, hpd0⟩ := probeIdx_surj h0 t.entries.length i0 hi0
    have hP0 : slotFilled t.entries (probeIdx h0 t.entries.length d0) = false := by
      rw [hpd0, slotFilled_of_get he0, hemp0]
      rfl
    have hex : ∃ d, slotFilled t.entries (probeIdx h0 t.entries.length d) = false :=
      ⟨d0, hP0⟩
    have hDspec := Nat.find_spec hex
    have hDlt : Nat.find hex < t.entries.length :=
      Nat.lt_of_le_of_lt (Nat.find_min' hex hP0) hd0
    have hDl : ∀ d2 < Nat.find hex,
        slotFilled t.entries (probeIdx h0 t.entries.length d2) = true := by
      intro d2 hd2
      have hm := Nat.find_min hex hd2
      cases hx : slotFilled t.entries (probeIdx h0 t.entries.length d2)
      · exact absurd hx hm
      · rfl
    unfold table_find_string
    rw [if_neg hlen0, hcapE]
    exact table_find_string_go_absent store hashf t.entries chars h0
      (Nat.find hex) hDlt hDspec hDl habs t.entries.length 0 (by omega) (by omega)

theorem chars_prepend_self (σ : InternState) (t2 : Table) (n2 n : Nat)
    (cs : List Char) :
    InternState.chars ⟨(n, cs) :: σ.store, t2, n2⟩ n = cs := by
  unfold InternState.chars
  rw [List.find?_cons_of_pos _ (by simp)]
  rfl

theorem chars_prepend_ne (σ : InternState) (t2 : Table) (n2 n k : Nat)
    (cs : List Char) (hne : n ≠ k) :
    InternState.chars ⟨(n, cs) :: σ.store, t2, n2⟩ k = σ.chars k := by
  unfold InternState.chars
  rw [List.find?_cons_of_neg _ (by simp [hne])]

/-- `allocate_string` on a well-formed interner state whose table holds no
string with the given bytes: it interns a fresh id for them, preserving
well-formedness and every existing string and interned key. -/
theorem allocate_string_spec (σ : InternState) (cs : List Char)
    (hWF : InternWF σ)
    (habs : ∀ k2 ∈ tableKeys σ.strings.entries, σ.chars k2 ≠ cs) :
    ∃ σ2, allocate_string σ cs = some (σ2, σ.nextId) ∧
      InternWF σ2 ∧ σ2.nextId = σ.nextId + 1 ∧
      (∀ k2, k2 < σ.nextId → σ2.chars k2 = σ.chars k2) ∧
      (∀ k2, keyAt σ.strings.entries k2 → keyAt σ2.strings.entries k2) ∧
      keyAt σ2.strings.entries σ.nextId ∧
      σ2.chars σ.nextId = cs := by
  obtain ⟨hWFt, hkeysLt, hnodup, hstoreLt, hinj⟩ := hWF
  have hhashf1 : ∀ k, keyAt σ.strings.entries k →
      InternState.hashf ⟨(σ.nextId, cs) :: σ.store, σ.strings, σ.nextId + 1⟩ k =
        σ.hashf k := by
    intro k hk
    have hklt : k < σ.nextId := hkeysLt k ((mem_tableKeys_iff _ _).mpr hk)
    unfold InternState.hashf
    rw [chars_prepend_ne σ σ.strings (σ.nextId + 1) σ.nextId k cs (by omega)]
  have hWFt1 : TableWF
      (InternState.hashf ⟨(σ.nextId, cs) :: σ.store, σ.strings, σ.nextId + 1⟩)
      σ.strings := TableWF_congr hWFt hhashf1
  obtain ⟨t1, isNew, hset, hWF1, hnew, hmaps1, hoth1⟩ :=
    table_set_spec
      (InternState.hashf ⟨(σ.nextId, cs) :: σ.store, σ.strings, σ.nextId + 1⟩)
      σ.strings σ.nextId Value.nil hWFt1
  have hstep : allocate_string σ cs =
      (table_set
        (InternState.hashf ⟨(σ.nextId, cs) :: σ.store, σ.strings, σ.nextId + 1⟩)
        σ.strings σ.nextId Value.nil).map
        (fun p => (⟨(σ.nextId, cs) :: σ.store, p.1, σ.nextId + 1⟩, σ.nextId)) := rfl
  have hOldKey : ∀ k, keyAt t1.entries k → ¬ k = σ.nextId →
      k ∈ tableKeys σ.strings.entries := by
    intro k hk hne
    obtain ⟨v, hv⟩ := keyAt_exists_mapsToE hk
    exact (mem_tableKeys_iff _ _).mpr (mapsToE_keyAt ((hoth1 k hne v).mp hv))
  refine ⟨⟨(σ.nextId, cs) :: σ.store, t1, σ.nextId + 1⟩, ?_, ?_, rfl, ?_, ?_, ?_, ?_⟩
  · rw [hstep, hset]
    rfl
  · refine ⟨hWF1, ?_, ?_, ?_, ?_⟩
    · intro k hk
      show k < σ.nextId + 1
      by_cases hkid : k = σ.nextId
      · omega
      · have := hkeysLt k (hOldKey k ((mem_tableKeys_iff _ _).mp hk) hkid)
        omega
    · show ((((σ.nextId, cs) :: σ.store).map Prod.fst)).Nodup
      rw [List.map_cons]
      refine List.nodup_cons.mpr ⟨?_, hnodup⟩
      intro hmem
      obtain ⟨p, hp, hp1⟩ := List.mem_map.mp hmem
      have := hstoreLt p hp
      omega
    · intro p hp
      show p.1 < σ.nextId + 1
      rcases List.mem_cons.mp hp with h | h
      · rw [h]
        omega
      · have := hstoreLt p h
        omega
    · intro k1 h1 k2 h2 hchars
      by_cases hid1 : k1 = σ.nextId
      · by_cases hid2 : k2 = σ.nextId
        · rw [hid1, hid2]
        · exfalso
          rw [hid1, chars_prepend_self σ t1 (σ.nextId + 1) σ.nextId cs,
            chars_prepend_ne σ t1 (σ.nextId + 1) σ.nextId k2 cs
              (by have := hkeysLt k2 (hOldKey k2 ((mem_tableKeys_iff _ _).mp h2) hid2); omega)]
            at hchars
          exact habs k2 (hOldKey k2 ((mem_tableKeys_iff _ _).mp h2) hid2) hchars.symm
      · by_cases hid2 : k2 = σ.nextId
        · exfalso
          rw [hid2, chars_prepend_self σ t1 (σ.nextId + 1) σ.nextId cs,
            chars_prepend_ne σ t1 (σ.nextId + 1) σ.nextId k1 cs
              (by have := hkeysLt k1 (hOldKey k1 ((mem_tableKeys_iff _ _).mp h1) hid1); omega)]
            at hchars
          exact habs k1 (hOldKey k1 ((mem_tableKeys_iff _ _).mp h1) hid1) hchars
        · rw [chars_prepend_ne σ t1 (σ.nextId + 1) σ.nextId k1 cs
              (by have := hkeysLt k1 (hOldKey k1 ((mem_tableKeys_iff _ _).mp h1) hid1); omega),
            chars_prepend_ne σ t1 (σ.nextId + 1) σ.nextId k2 cs
              (by have := hkeysLt k2 (hOldKey k2 ((mem_tableKeys_iff _ _).mp h2) hid2); omega)]
            at hchars
          exact hinj k1 (hOldKey k1 ((mem_tableKeys_iff _ _).mp h1) hid1)
            k2 (hOldKey k2 ((mem_tableKeys_iff _ _).mp h2) hid2) hchars
  · intro k2 hk2
    show InternState.chars ⟨(σ.nextId, cs) :: σ.store, t1, σ.nextId + 1⟩ k2 =
      σ.chars k2
    exact chars_prepend_ne σ t1 (σ.nextId + 1) σ.nextId k2 cs (by omega)
  · intro k2 hk2
    have hklt : k2 < σ.nextId := hkeysLt k2 ((mem_tableKeys_iff _ _).mpr hk2)
    obtain ⟨v, hv⟩ := keyAt_exists_mapsToE hk2
    show keyAt t1.entries k2
    exact mapsToE_keyAt ((hoth1 k2 (by omega) v).mpr hv)
  · show keyAt t1.entries σ.nextId
    exact mapsToE_keyAt hmaps1
  · show InternState.chars ⟨(σ.nextId, cs) :: σ.store, t1, σ.nextId + 1⟩ σ.nextId = cs
    exact chars_prepend_self σ t1 (σ.nextId + 1) σ.nextId cs

/-- One interning call (`copy_string` and `take_string` share their body):
on a well-formed state it returns the unique interned string with the
given bytes, allocating it only when absent, and preserves every existing
string and interned key. -/
theorem intern_op_spec (σ : InternState) (cs : List Char) (hWF : InternWF σ) :
    ∃ σ2 k, copy_string σ cs = some (σ2, k) ∧ take_string σ cs = some (σ2, k) ∧
      InternWF σ2 ∧ σ.nextId ≤ σ2.nextId ∧
      (∀ k2, k2 < σ.nextId → σ2.chars k2 = σ.chars k2) ∧
      (∀ k2, keyAt σ.strings.entries k2 → keyAt σ2.strings.entries k2) ∧
      k ∈ tableKeys σ2.strings.entries ∧ σ2.chars k = cs ∧ k < σ2.nextId := by
  have hstepC : copy_string σ cs =
      (table_find_string σ.chars σ.hashf σ.strings cs (hash_string cs)).bind
        (fun found => match found with
          | some interned => some (σ, interned)
          | none => allocate_string σ cs) := rfl
  have hstepT : take_string σ cs =
      (table_find_string σ.chars σ.hashf σ.strings cs (hash_string cs)).bind
        (fun found => match found with
          | some interned => some (σ, interned)
          | none => allocate_string σ cs) := rfl
  obtain ⟨hWFt, hkeysLt, hnodup, hstoreLt, hinj⟩ := hWF
  by_cases hhit : ∃ k ∈ tableKeys σ.strings.entries, σ.chars k = cs
  · obtain ⟨k, hkmem, hkchars⟩ := hhit
    have hfind := table_find_string_present σ.chars σ.hashf σ.strings cs k hWFt
      ((mem_tableKeys_iff _ _).mp hkmem) hkchars
      (by unfold InternState.hashf; rw [hkchars])
      (fun k2 hk2 hc2 => hinj k2 hk2 k hkmem (by rw [hc2, hkchars]))
    refine ⟨σ, k, ?_, ?_, ⟨hWFt, hkeysLt, hnodup, hstoreLt, hinj⟩, le_refl _,
      fun _ _ => rfl, fun _ h => h, hkmem, hkchars, hkeysLt k hkmem⟩
    · rw [hstepC, hfind]
      rfl
    · rw [hstepT, hfind]
      rfl
  · have habs : ∀ k2 ∈ tableKeys σ.strings.entries, σ.chars k2 ≠ cs := by
      intro k2 hk2 hc
      exact hhit ⟨k2, hk2, hc⟩
    have hfind := table_find_string_absent σ.chars σ.hashf σ.strings cs
      (hash_string cs) hWFt habs
    obtain ⟨σ2, halloc, hWF2, hnext2, hcharsOld, hmono, hkeyNew, hcharsNew⟩ :=
      allocate_string_spec σ cs ⟨hWFt, hkeysLt, hnodup, hstoreLt, hinj⟩ habs
    refine ⟨σ2, σ.nextId, ?_, ?_, hWF2, by omega, hcharsOld, hmono,
      (mem_tableKeys_iff _ _).mpr hkeyNew, hcharsNew, by omega⟩
    · rw [hstepC, hfind]
      show allocate_string σ cs = some (σ2, σ.nextId)
      exact halloc
    · rw [hstepT, hfind]
      show allocate_string σ cs = some (σ2, σ.nextId)
      exact halloc

/-- Any sequence of interning calls from a well-formed state succeeds,
keeps the state well-formed, and logs only live interned strings carrying
their original bytes. -/
theorem runInternOps_spec : ∀ (ops : List InternOp) (σ : InternState),
    InternWF σ →
    ∃ σ2 log, runInternOps σ ops = some (σ2, log) ∧
      InternWF σ2 ∧ σ.nextId ≤ σ2.nextId ∧
      (∀ k, k < σ.nextId → σ2.chars k = σ.chars k) ∧
      (∀ k, keyAt σ.strings.entries k → keyAt σ2.strings.entries k) ∧
      (∀ e ∈ log, e.2 ∈ tableKeys σ2.strings.entries ∧ σ2.chars e.2 = e.1) := by
  intro ops
  induction ops with
  | nil =>
    intro σ hWF
    exact ⟨σ, [], rfl, hWF, le_refl _, fun _ _ => rfl, fun _ h => h, by simp⟩
  | cons op rest ih =>
    intro σ hWF
    obtain ⟨σm, k, hcopy, htake, hWFm, hle, hcharsm, hkeym, hkmem, hkchars, hklt⟩ :=
      intern_op_spec σ op.chars hWF
    obtain ⟨σ2, log, hrun, hWF2, hle2, hchars2, hkey2, hlog⟩ := ih σm hWFm
    have heq : runInternOps σ (op :: rest) = some (σ2, (op.chars, k) :: log) := by
      cases op with
      | copy cs =>
        have hstep : runInternOps σ (.copy cs :: rest) =
            (copy_string σ cs).bind fun p =>
              (runInternOps p.1 rest).map fun q =>
                (q.1, ((InternOp.copy cs).chars, p.2) :: q.2) := rfl
        rw [hstep, show copy_string σ cs = some (σm, k) from hcopy,
          Option.some_bind, hrun]
        rfl
      | take cs =>
        have hstep : runInternOps σ (.take cs :: rest) =
            (take_string σ cs).bind fun p =>
              (runInternOps p.1 rest).map fun q =>
                (q.1, ((InternOp.take cs).chars, p.2) :: q.2) := rfl
        rw [hstep, show take_string σ cs = some (σm, k) from htake,
          Option.some_bind, hrun]
        rfl
    refine ⟨σ2, (op.chars, k) :: log, heq, hWF2, by omega, ?_,
      fun k2 hk2 => hkey2 k2 (hkeym k2 hk2), ?_⟩
    · intro k2 hk2
      rw [hchars2 k2 (by omega), hcharsm k2 hk2]
    · intro e he
      rcases List.mem_cons.mp he with h | h
      · subst h
        refine ⟨?_, ?_⟩
        · exact (mem_tableKeys_iff _ _).mpr (hkey2 k ((mem_tableKeys_iff _ _).mp hkmem))
        · show σ2.chars k = op.chars
          rw [hchars2 k hklt, hkchars]
      · exact hlog e h

/-- C1: the claim states that executing `OP_CONSTANT` only pushes
`constants[idx]` and writes nothing to stdout, so that
`print 1 + 2 * 3;` writes exactly `7` and a newline.  The code
(debug.c lines 449–455) additionally prints every constant as it is
loaded, so the program writes `1`, `2`, `3` and then `7`, each on its own
line. -/
theorem c1_op_constant_prints_constants :
    interpretM "print 1 + 2 * 3;" = some ("1\n2\n3\n7\n", .ok) ∧
    "1\n2\n3\n7\n" ≠ "7\n" := by
  decide

/-- C2: the claim states the resolution order local → enclosing-local
(upvalue) → global.  In part_003 `named_variable` the branches are wired
differently: a name that is a local of the current function has its slot
overwritten by `resolve_upvalue_idx`'s result, so plain local `a` (slot 1
of `compilerWithLocalA`) is emitted as `GET_LOCAL 255` (the `uint8_t` cast
of −1) instead of `GET_LOCAL 1`; and a name that is not a current local is
emitted as a global immediately, so `i` from `compilerInnerI`'s enclosing
function is emitted as `GET_GLOBAL 0` instead of `GET_UPVALUE`. -/
theorem c2_named_variable_resolution_scrambled :
    (named_variable_ops compilerWithLocalA ['a']).2.1 = (.getLocal, 255) ∧
    (named_variable_ops compilerWithLocalA ['a']).2.1 ≠ (.getLocal, 1) ∧
    (named_variable_ops compilerInnerI ['i']).2.1 = (.getGlobal, 0) := by
  decide

/-- C3: the claim states that after a `//` comment the next `scan_token`
result is the next real token, never an ERROR token.  Because the
`case '/'` of `skip_whitespace` falls through to `default: return` after
consuming the comment, the terminating newline is left for `scan_token`'s
dispatch, which answers with the ERROR token "Unexpected character.": on
`//x\n1` the next token is ERROR, not the number `1`. -/
theorem c3_comment_then_newline_gives_error_token :
    (scan_token ⟨"//x\n1".toList, 1⟩).2.type = .error ∧
    (scan_token ⟨"//x\n1".toList, 1⟩).2.lexeme = "Unexpected character.".toList ∧
    (scan_token ⟨"//x\n1".toList, 1⟩).2.type ≠ .number := by
  decide

/-- C4: the claim states that prefix `-` compiles only its immediate
operand, so `- 1 + 2` evaluates to `(-1) + 2 = 1`.  The `unary` rule of
part_003 (line 477; identically compiler.c line 202) compiles its operand
with `parse_precedence(PREC_ASSIGNMENT)`, so the whole sum becomes the
operand: the emitted code is `CONSTANT 1, CONSTANT 2, ADD, NEGATE` and the
program prints `-3`. -/
theorem c4_unary_consumes_whole_expression :
    compileM "print - 1 + 2;" =
      some (some ⟨[.op .constant, .b 0, .op .constant, .b 1, .op .add,
                   .op .negate, .op .print, .op .nilLit, .op .ret],
                  [.num 1, .num 2]⟩) ∧
    interpretM "print - 1 + 2;" = some ("1\n2\n-3\n", .ok) ∧
    (-3 : Int) ≠ (-1 : Int) + 2 := by
  decide

/-- C5: the claim states that every collection cycle marks
`vm.init_string` as a root so it survives even when nothing else
references it.  memory.c `mark_roots` (lines 132–147) never marks
`vm.init_string`: on the heap exactly as `init_vm` leaves it, the `"init"`
string (object 0) stays unmarked, is purged from the interner and is freed
by the sweep, while the `"clock"` binding (objects 1 and 2) survives via
the globals table. -/
theorem c5_init_string_swept :
    gcInitVm.init_string = some 0 ∧
    (0 ∈ (mark_roots gcInitVm).marked) = False ∧
    (collect_garbage gcInitVm).objects = [2, 1] ∧
    ((collect_garbage gcInitVm).heap.find? fun p => p.1 = 0) = none := by
  decide

/-- C7 counterexample: the claim's "raises Stack overflow exactly when
`frame_count` already equals FRAMES_MAX" fails, because the arity check
precedes the frame-count check: a full VM called with a wrong argument
count reports the arity error, not "Stack overflow." -/
theorem c7_full_frames_arity_error_counterexample :
    vmFullFrames.frames.length = FRAMES_MAX ∧
    (call vmFullFrames ⟨0⟩ 1).2 = some (.expectedArgs 0 1) ∧
    (call vmFullFrames ⟨0⟩ 1).2 ≠ some .stackOverflow := by
  decide

/-- C7 as amended: `call` raises "Expected N arguments but got M." exactly
when the argument count differs from the arity; it raises "Stack overflow."
exactly when the arity matches AND `frame_count` equals FRAMES_MAX (the
arity error takes precedence); otherwise it succeeds, pushing a frame whose
`ip` starts at the function's code and whose `slots` is
`stack_top − argc − 1`.  In particular 64 nested active frames are allowed
and a 65th (arity-correct) call fails. -/
theorem c7_call_spec (vm : CallVMState) (closure : ObjClosureM) (argc : Nat) :
    ((call vm closure argc).2 = some (.expectedArgs closure.arity argc) ↔
      argc ≠ closure.arity) ∧
    ((call vm closure argc).2 = some .stackOverflow ↔
      argc = closure.arity ∧ vm.frames.length = FRAMES_MAX) ∧
    ((call vm closure argc).2 = none ↔
      argc = closure.arity ∧ vm.frames.length ≠ FRAMES_MAX) ∧
    (argc = closure.arity → vm.frames.length ≠ FRAMES_MAX →
      call vm closure argc =
        ({ vm with frames := vm.frames ++ [⟨closure, 0, vm.stackLen - argc - 1⟩] },
         none)) := by
  unfold call
  by_cases h1 : argc ≠ closure.arity
  · simp [h1]
  · push_neg at h1
    by_cases h2 : vm.frames.length = FRAMES_MAX
    · simp [h1, h2]
    · simp [h1, h2]

/-- C7 witness: the amended statement applied to a one-frame VM calling an
arity-2 closure with two arguments. -/
theorem c7_call_spec_witness :
    (call vmOneFrame ⟨2⟩ 2).2 = none ∧
    call vmOneFrame ⟨2⟩ 2 =
      ({ vmOneFrame with frames := vmOneFrame.frames ++ [⟨⟨2⟩, 0, 2⟩] }, none) := by
  have h := c7_call_spec vmOneFrame ⟨2⟩ 2
  exact ⟨h.2.2.1.mpr (by decide), h.2.2.2 rfl (by decide)⟩

/-- C6: the claim states that `OP_SET_GLOBAL` on a name not currently in
the globals table raises "Undefined variable" and leaves the globals
mapping unchanged (the transiently inserted entry is deleted again, the
name stays absent), while on a defined name it overwrites the binding and
leaves the assigned value on the stack.  Confirmed: `op_set_global` (the
OP_SET_GLOBAL case of `run`, built on `table_set`/`table_delete`) behaves
exactly so on every well-formed globals table. -/
theorem c6_set_global_spec (hash : Nat → Nat) (t : Table) (name : Nat)
    (v : Value) (rest : List Value) (hWF : TableWF hash t) :
    (¬ keyAt t.entries name →
      ∃ g2, op_set_global hash t (v :: rest) name =
          some (g2, v :: rest, some (RuntimeErr.undefinedVariable name)) ∧
        TableWF hash g2 ∧
        (∀ k w, mapsToE g2.entries k w ↔ mapsToE t.entries k w) ∧
        ¬ keyAt g2.entries name) ∧
    (keyAt t.entries name →
      ∃ g2, op_set_global hash t (v :: rest) name = some (g2, v :: rest, none) ∧
        TableWF hash g2 ∧ mapsTo g2 name v ∧
        (∀ k, k ≠ name → ∀ w, (mapsToE g2.entries k w ↔ mapsToE t.entries k w))) := by
  obtain ⟨t1, isNew, hset, hWF1, hnew, hmaps1, hoth1⟩ :=
    table_set_spec hash t name v hWF
  constructor
  · intro hundef
    have hisNew : isNew = true := hnew.mpr hundef
    subst hisNew
    obtain ⟨t2, hdel, hWF2, _hcap2, _hlen2, hnokey2, hnomap2, hoth2⟩ :=
      table_delete_spec hash t1 name hWF1 (mapsToE_keyAt hmaps1)
    refine ⟨t2, ?_, hWF2, ?_, hnokey2⟩
    · have hstep : op_set_global hash t (v :: rest) name =
          (table_set hash t name v).bind fun p =>
            if p.2 = true then
              (table_delete hash p.1 name).map fun q =>
                (q.1, v :: rest, some (RuntimeErr.undefinedVariable name))
            else some (p.1, v :: rest, none) := rfl
      rw [hstep, hset, Option.some_bind]
      show (table_delete hash t1 name).map _ = _
      rw [hdel]
      rfl
    · intro k w
      by_cases hk : k = name
      · subst hk
        constructor
        · intro h
          exact absurd h (hnomap2 w)
        · intro h
          exact absurd (mapsToE_keyAt h) hundef
      · rw [hoth2 k hk w]
        exact hoth1 k hk w
  · intro hdef
    have hisNew : isNew = false := by
      cases hN : isNew
      · rfl
      · exact absurd hdef (hnew.mp hN)
    subst hisNew
    refine ⟨t1, ?_, hWF1, hmaps1, hoth1⟩
    have hstep : op_set_global hash t (v :: rest) name =
        (table_set hash t name v).bind fun p =>
          if p.2 = true then
            (table_delete hash p.1 name).map fun q =>
              (q.1, v :: rest, some (RuntimeErr.undefinedVariable name))
          else some (p.1, v :: rest, none) := rfl
    rw [hstep, hset, Option.some_bind]
    rfl

/-- C6 witness: on the concrete globals table `tableW` (key 1 defined),
`OP_SET_GLOBAL 1` overwrites the binding with `7`, raises no error and
leaves `7` on the stack. -/
theorem c6_set_global_spec_witness :
    ∃ g2, op_set_global idHash tableW (Value.num 7 :: []) 1 =
        some (g2, Value.num 7 :: [], none) ∧
      TableWF idHash g2 ∧ mapsTo g2 1 (Value.num 7) ∧
      (∀ k, k ≠ 1 → ∀ w, (mapsToE g2.entries k w ↔ mapsToE tableW.entries k w)) :=
  (c6_set_global_spec idHash tableW 1 (Value.num 7) [] (by decide)).2 (by decide)

/-- C10: the claim states that `OP_DEFINE_GLOBAL` with an already-defined
name never raises an error: it silently overwrites the old binding with
the new value and pops it.  Confirmed: `op_define_global` (the
OP_DEFINE_GLOBAL case of `run`) succeeds on every well-formed globals
table holding the name, rebinds it to the pushed value, pops the stack
and leaves every other binding untouched. -/
theorem c10_define_global_overwrites (hash : Nat → Nat) (t : Table)
    (name : Nat) (v : Value) (rest : List Value) (hWF : TableWF hash t)
    (_hdef : keyAt t.entries name) :
    ∃ g2, op_define_global hash t (v :: rest) name = some (g2, rest) ∧
      TableWF hash g2 ∧ mapsTo g2 name v ∧
      (∀ k, k ≠ name → ∀ w, (mapsToE g2.entries k w ↔ mapsToE t.entries k w)) := by
  obtain ⟨t1, isNew, hset, hWF1, _hnew, hmaps1, hoth1⟩ :=
    table_set_spec hash t name v hWF
  refine ⟨t1, ?_, hWF1, hmaps1, hoth1⟩
  have hstep : op_define_global hash t (v :: rest) name =
      (table_set hash t name v).map fun p => (p.1, rest) := rfl
  rw [hstep, hset]
  rfl

/-- C10 witness: redefining the already-bound name 1 on the concrete
globals table `tableW` succeeds, rebinds it to `9` and pops the value. -/
theorem c10_define_global_overwrites_witness :
    ∃ g2, op_define_global idHash tableW (Value.num 9 :: []) 1 = some (g2, []) ∧
      TableWF idHash g2 ∧ mapsTo g2 1 (Value.num 9) ∧
      (∀ k, k ≠ 1 → ∀ w, (mapsToE g2.entries k w ↔ mapsToE tableW.entries k w)) :=
  c10_define_global_overwrites idHash tableW 1 (Value.num 9) [] (by decide)
    (by decide)


/-- C9: the claim states the open-upvalue list is sorted by strictly
decreasing stack location at every safe point, that `capture_upvalue`
returns the existing open upvalue when one already points at the slot
(sharing the cell) and otherwise inserts a fresh one in descending order,
and that `close_upvalues` removes exactly those with location ≥ `last`,
redirecting each to its own `closed` field.  Confirmed: on any state
satisfying the sortedness invariant `UVWF`, `capture_upvalue` preserves it
and reuses or splices exactly as claimed, and `close_upvalues` preserves
it, removes exactly the locations ≥ `last` and stores each closed cell's
stack value in its `closed` field. -/
theorem c9_open_upvalue_list_spec (σ : UVState) (slot last : Nat)
    (hWF : UVWF σ) (hslot : slot < σ.stack.length) :
    (∃ σ2 id2, capture_upvalue σ slot = some (σ2, id2) ∧
      σ2.stack = σ.stack ∧ UVWF σ2 ∧ cellLoc σ2.cells id2 = some slot ∧
      (slot ∈ openLocs σ → σ2 = σ ∧ id2 ∈ σ.openUps) ∧
      (slot ∉ openLocs σ →
        σ2.cells = σ.cells ++ [⟨some slot, Value.nil⟩] ∧ id2 = σ.cells.length ∧
        ∃ pre post, σ.openUps = pre ++ post ∧ σ2.openUps = pre ++ id2 :: post ∧
          (∀ u ∈ pre, slot < locD σ.cells u) ∧
          (∀ u ∈ post, locD σ.cells u < slot))) ∧
    (∃ σ2 done, close_upvalues σ last = some σ2 ∧
      σ2.stack = σ.stack ∧ UVWF σ2 ∧
      σ.openUps = done ++ σ2.openUps ∧
      (∀ u ∈ done, last ≤ locD σ.cells u) ∧
      (∀ u ∈ σ2.openUps, locD σ.cells u < last) ∧
      (∀ u ∈ done, ∃ v, σ.stack.get? (locD σ.cells u) = some v ∧
        σ2.cells.get? u = some ⟨none, v⟩) ∧
      (∀ u ∈ σ2.openUps, σ2.cells.get? u = σ.cells.get? u)) := by
  obtain ⟨hWF1, hWF2⟩ := hWF
  constructor
  · -- capture_upvalue
    obtain ⟨cells2, ups2, id2, hrun, hmem, hfresh⟩ :=
      capture_go_spec slot σ.openUps σ.cells (fun u hu => (hWF1 u hu).1) hWF2
    have hcap : capture_upvalue σ slot = some (⟨σ.stack, cells2, ups2⟩, id2) := by
      unfold capture_upvalue
      rw [hrun]
      rfl
    by_cases hin : slot ∈ openLocs σ
    · obtain ⟨hce, hue, hidm, hidl⟩ := hmem hin
      refine ⟨σ, id2, ?_, rfl, ⟨hWF1, hWF2⟩, ?_,
        fun _ => ⟨rfl, hidm⟩, fun hno => absurd hin hno⟩
      · rw [hce, hue] at hcap
        exact hcap
      · obtain ⟨loc2, hloc2⟩ := Option.isSome_iff_exists.mp (hWF1 id2 hidm).1
        have hl2 : locD σ.cells id2 = loc2 := by
          unfold locD
          rw [hloc2]
          rfl
        rw [hloc2, hl2.symm.trans hidl]
    · obtain ⟨hce, hid, pre, post, hsplit, hups2, hpre, hpost⟩ := hfresh hin
      have hlt2 : ∀ u ∈ σ.openUps, u < σ.cells.length := by
        intro u hu
        obtain ⟨loc2, hloc2⟩ := Option.isSome_iff_exists.mp (hWF1 u hu).1
        obtain ⟨c, hc, _⟩ := cellLoc_some_elim hloc2
        exact List.get?_eq_some.mp hc |>.choose
      have happ : ∀ u ∈ σ.openUps,
          cellLoc (σ.cells ++ [⟨some slot, Value.nil⟩]) u = cellLoc σ.cells u := by
        intro u hu
        unfold cellLoc
        rw [List.get?_append (hlt2 u hu)]
      have hlocDapp : ∀ u ∈ σ.openUps,
          locD (σ.cells ++ [⟨some slot, Value.nil⟩]) u = locD σ.cells u := by
        intro u hu
        unfold locD
        rw [happ u hu]
      have hnew : cellLoc (σ.cells ++ [⟨some slot, Value.nil⟩])
          σ.cells.length = some slot := by
        unfold cellLoc
        rw [List.get?_concat_length]
        rfl
      have hnewD : locD (σ.cells ++ [⟨some slot, Value.nil⟩])
          σ.cells.length = slot := by
        unfold locD
        rw [hnew]
        rfl
      have hpreM : ∀ u ∈ pre, u ∈ σ.openUps := by
        intro u hu
        rw [hsplit]
        exact List.mem_append_left _ hu
      have hpostM : ∀ u ∈ post, u ∈ σ.openUps := by
        intro u hu
        rw [hsplit]
        exact List.mem_append_right _ hu
      have hporig : (pre.map (locD σ.cells) ++ post.map (locD σ.cells)).Pairwise
          fun a b => b < a := by
        rw [← List.map_append, ← hsplit]
        exact hWF2
      obtain ⟨hPpre, hPpost, hPcross⟩ := List.pairwise_append.mp hporig
      have hWF2n : UVWF ⟨σ.stack, σ.cells ++ [⟨some slot, Value.nil⟩],
          pre ++ id2 :: post⟩ := by
        constructor
        · intro u hu
          rcases List.mem_append.mp hu with h | h
          · have hM := hpreM u h
            exact ⟨by rw [happ u hM]; exact (hWF1 u hM).1,
              by show locD (σ.cells ++ [⟨some slot, Value.nil⟩]) u < σ.stack.length
                 rw [hlocDapp u hM]; exact (hWF1 u hM).2⟩
          · rcases List.mem_cons.mp h with h2 | h2
            · subst h2
              exact ⟨by rw [hid, hnew]; rfl,
                by show locD (σ.cells ++ [⟨some slot, Value.nil⟩]) u < σ.stack.length
                   rw [hid, hnewD]; exact hslot⟩
            · have hM := hpostM u h2
              exact ⟨by rw [happ u hM]; exact (hWF1 u hM).1,
                by show locD (σ.cells ++ [⟨some slot, Value.nil⟩]) u < σ.stack.length
                   rw [hlocDapp u hM]; exact (hWF1 u hM).2⟩
        · show ((pre ++ id2 :: post).map
            (locD (σ.cells ++ [⟨some slot, Value.nil⟩]))).Pairwise fun a b => b < a
          rw [List.map_append, List.map_cons,
            List.map_congr_left (fun u hu => hlocDapp u (hpreM u hu)),
            List.map_congr_left (fun u hu => hlocDapp u (hpostM u hu)),
            hid, hnewD]
          refine List.pairwise_append.mpr ⟨hPpre, ?_, ?_⟩
          · refine List.pairwise_cons.mpr ⟨?_, hPpost⟩
            intro b hb
            obtain ⟨u, hu, hfu⟩ := List.mem_map.mp hb
            rw [← hfu]
            exact hpost u hu
          · intro a ha b hb
            obtain ⟨u, hu, hfu⟩ := List.mem_map.mp ha
            rcases List.mem_cons.mp hb with h2 | h2
            · rw [← hfu, h2]
              exact hpre u hu
            · obtain ⟨u2, hu2, hfu2⟩ := List.mem_map.mp h2
              rw [← hfu, ← hfu2]
              have ha2 := hpre u hu
              have hb2 := hpost u2 hu2
              omega
      refine ⟨⟨σ.stack, σ.cells ++ [⟨some slot, Value.nil⟩], pre ++ id2 :: post⟩,
        id2, ?_, rfl, hWF2n, by rw [hid]; exact hnew,
        fun h => absurd h hin, fun _ => ⟨rfl, hid, pre, post, hsplit, rfl, hpre, hpost⟩⟩
      rw [hce, hups2] at hcap
      exact hcap
  · -- close_upvalues
    obtain ⟨cells2, done, kept, hrun, hsplit, hdone, hkept, hlen2, hpres, hclosed⟩ :=
      close_go_spec σ.stack last σ.openUps σ.cells hWF1 hWF2
    have hclose : close_upvalues σ last = some ⟨σ.stack, cells2, kept⟩ := by
      unfold close_upvalues
      rw [hrun]
      rfl
    have hkeptnotdone : ∀ u ∈ kept, u ∉ done := by
      intro u hu hd
      have hp := hWF2
      rw [hsplit, List.map_append] at hp
      have hcross := (List.pairwise_append.mp hp).2.2
      have := hcross (locD σ.cells u) (List.mem_map_of_mem _ hd)
        (locD σ.cells u) (List.mem_map_of_mem _ hu)
      omega
    have hcellsEq : ∀ u ∈ kept, cells2.get? u = σ.cells.get? u :=
      fun u hu => hpres u (hkeptnotdone u hu)
    have hcellLocEq : ∀ u ∈ kept, cellLoc cells2 u = cellLoc σ.cells u := by
      intro u hu
      unfold cellLoc
      rw [hcellsEq u hu]
    have hlocEq : ∀ u ∈ kept, locD cells2 u = locD σ.cells u := by
      intro u hu
      unfold locD
      rw [hcellLocEq u hu]
    have hWF2n : UVWF ⟨σ.stack, cells2, kept⟩ := by
      constructor
      · intro u hu
        have hM : u ∈ σ.openUps := by
          rw [hsplit]
          exact List.mem_append_right _ hu
        exact ⟨by rw [hcellLocEq u hu]; exact (hWF1 u hM).1,
          by show locD cells2 u < σ.stack.length
             rw [hlocEq u hu]; exact (hWF1 u hM).2⟩
      · show (kept.map (locD cells2)).Pairwise fun a b => b < a
        rw [List.map_congr_left (fun u hu => hlocEq u hu)]
        have hp := hWF2
        rw [hsplit, List.map_append] at hp
        exact (List.pairwise_append.mp hp).2.1
    exact ⟨⟨σ.stack, cells2, kept⟩, done, hclose, rfl, hWF2n, hsplit,
      hdone, hkept, hclosed, hcellsEq⟩

/-- C9 witness: on the concrete state `uvW` (open upvalues at slots 3 and
1), capturing slot 2 succeeds preserving the invariant with a cell at
slot 2, and closing from slot 1 up succeeds removing a prefix of the open
list. -/
theorem c9_open_upvalue_list_spec_witness :
    UVWF uvW ∧ 2 < uvW.stack.length ∧
    (∃ σ2 id2, capture_upvalue uvW 2 = some (σ2, id2) ∧ UVWF σ2 ∧
      cellLoc σ2.cells id2 = some 2) ∧
    (∃ σ2 done, close_upvalues uvW 1 = some σ2 ∧ UVWF σ2 ∧
      uvW.openUps = done ++ σ2.openUps ∧
      (∀ u ∈ done, 1 ≤ locD uvW.cells u)) := by
  have h := c9_open_upvalue_list_spec uvW 2 1 (by decide) (by decide)
  obtain ⟨⟨σ2, id2, h1, _, h3, h4, _, _⟩, ⟨σ3, done, h5, _, h7, h8, h9, _, _, _⟩⟩ := h
  exact ⟨by decide, by decide, ⟨σ2, id2, h1, h3, h4⟩, ⟨σ3, done, h5, h7, h8, h9⟩⟩


/-- C8: the claim states string interning is a process-wide invariant —
any two `copy_string`/`take_string` calls (in any order, including via
concatenation) on equal byte sequences return the same string object, so
at most one string object exists per content.  Confirmed: every sequence
of interning calls from the initial state succeeds, any two logged calls
with equal bytes return the same id, and the interned strings have
pairwise distinct contents. -/
theorem c8_string_interning_unique (ops : List InternOp) :
    ∃ σ2 log, runInternOps initInternState ops = some (σ2, log) ∧
      InternWF σ2 ∧
      (∀ e1 ∈ log, ∀ e2 ∈ log, e1.1 = e2.1 → e1.2 = e2.2) ∧
      (∀ k1 ∈ tableKeys σ2.strings.entries, ∀ k2 ∈ tableKeys σ2.strings.entries,
        σ2.chars k1 = σ2.chars k2 → k1 = k2) := by
  obtain ⟨σ2, log, hrun, hWF2, _, _, _, hlog⟩ :=
    runInternOps_spec ops initInternState (by decide)
  refine ⟨σ2, log, hrun, hWF2, ?_, hWF2.2.2.2.2⟩
  intro e1 h1 e2 h2 hchars
  obtain ⟨hm1, hc1⟩ := hlog e1 h1
  obtain ⟨hm2, hc2⟩ := hlog e2 h2
  exact hWF2.2.2.2.2 e1.2 hm1 e2.2 hm2 (by rw [hc1, hc2, hchars])


end Clox
